import Mathlib

/-!
# Verification of `reflect-deep` (path-based deep access and structural deep cloning)

This file gives a shallow embedding of the library's two cores:

* the path walkers `has` / `get` / `set` / `reach` / `deleteProperty` /
  `defineProperty` of `src/deep.ts` together with the argument validation
  `expectArgs` of `common.ts`, modelled over finite plain-object trees
  (`JVal`), and
* the cycle-safe structural cloner `deepClone` of `src/deep.ts`, modelled
  over an explicit heap of composite nodes (`Heap`, `Node`) with an explicit
  visited cache, so that reference identity (`===`), sharing and cycles are
  expressible.

All definitions are executable; theorems about the claims follow at the end.
-/

namespace ReflectDeep

/-- Association-list lookup keyed by decidable equality (used for object
fields, sparse-array entries, the clone cache and the heap itself). -/
def aget {κ α : Type} [DecidableEq κ] : List (κ × α) → κ → Option α
  | [], _ => none
  | (k, a) :: r, k' => if k' = k then some a else aget r k'

/-- Association-list update: replace the first binding of the key, or append
a fresh binding at the end (JS property insertion order). -/
def aset {κ α : Type} [DecidableEq κ] : List (κ × α) → κ → α → List (κ × α)
  | [], k, a => [(k, a)]
  | (k', a') :: r, k, a => if k = k' then (k, a) :: r else (k', a') :: aset r k a

/-- Primitive JS values (`typeof o !== 'object'` and `null`).  Functions are
not modelled; none of the verified claims mentions them. -/
inductive Prim where
  | undefined
  | null
  | bool (b : Bool)
  | num (n : Int)
  | str (s : String)
  | sym (id : Nat)
  | bigintP (n : Int)
deriving DecidableEq, Repr

/-- A property key after JS key coercion: a string or a symbol. -/
inductive PKey where
  | str (s : String)
  | sym (id : Nat)
deriving DecidableEq, Repr

/-! ## Tree model for the path walkers

The path operations of `ReflectDeep` traverse plain data through
`Reflect.has` / `Reflect.get` / `Reflect.set` / `Reflect.deleteProperty`.
For these claims a tree of plain objects over primitive leaves suffices;
prototype chains, getters and receivers play no role in the verified
properties and are not modelled. -/

/-- Association-list removal of the first binding of a key
(`Reflect.deleteProperty` on plain data). -/
def adel {κ α : Type} [DecidableEq κ] : List (κ × α) → κ → List (κ × α)
  | [], _ => []
  | (k', a') :: r, k => if k = k' then r else (k', a') :: adel r k

/-- A JS value for the path-walker model: a primitive or a plain object with
ordered fields. -/
inductive JVal where
  | prim (p : Prim)
  | obj (fields : List (PKey × JVal))

mutual

/-- Decidable equality of model values (the derive handler does not support
the nested occurrence under `List`). -/
def JVal.deq : (a b : JVal) → Decidable (a = b)
  | .prim p, .prim q =>
    match decEq p q with
    | isTrue h => isTrue (by rw [h])
    | isFalse h => isFalse (fun hh => h (by injection hh))
  | .prim _, .obj _ => isFalse (fun h => JVal.noConfusion h)
  | .obj _, .prim _ => isFalse (fun h => JVal.noConfusion h)
  | .obj fs, .obj gs =>
    match JVal.deqL fs gs with
    | isTrue h => isTrue (by rw [h])
    | isFalse h => isFalse (fun hh => h (by injection hh))

/-- Decidable equality of field lists. -/
def JVal.deqL : (xs ys : List (PKey × JVal)) → Decidable (xs = ys)
  | [], [] => isTrue rfl
  | [], _ :: _ => isFalse (fun h => List.noConfusion h)
  | _ :: _, [] => isFalse (fun h => List.noConfusion h)
  | (k, v) :: xs, (k', v') :: ys =>
    match decEq k k', JVal.deq v v', JVal.deqL xs ys with
    | isTrue h1, isTrue h2, isTrue h3 => isTrue (by rw [h1, h2, h3])
    | isFalse h1, _, _ => isFalse (fun hh => by
        injection hh with hp hr
        injection hp with h1' h2'
        exact h1 h1')
    | _, isFalse h2, _ => isFalse (fun hh => by
        injection hh with hp hr
        injection hp with h1' h2'
        exact h2 h2')
    | _, _, isFalse h3 => isFalse (fun hh => by
        injection hh with hp hr
        exact h3 hr)

end

instance : DecidableEq JVal := JVal.deq

/-- `isPrimitive` of `common.ts`:
`(typeof o !== 'object' || o === null) && typeof o !== 'function'`.
In the function-free model this holds exactly for non-objects. -/
def isPrimJ : JVal → Bool
  | .prim _ => true
  | .obj _ => false

/-- `Reflect.has` on a plain object: field presence (no prototype chain in
the model).  The walkers only call this on non-primitive values. -/
def jsHas : JVal → PKey → Bool
  | .obj fs, k => (aget fs k).isSome
  | .prim _, _ => false

/-- `Reflect.get` on a plain object; `undefined` for an absent field. -/
def jsGet : JVal → PKey → JVal
  | .obj fs, k => (aget fs k).getD (.prim .undefined)
  | .prim _, _ => .prim .undefined

/-- `Reflect.set` on a plain object (model objects are always extensible and
writable, so the underlying primitive never fails). Setting on a primitive
never happens in the walkers (guarded by `isPrimitive`); it is a no-op here. -/
def jsSet : JVal → PKey → JVal → JVal
  | .obj fs, k, v => .obj (aset fs k v)
  | .prim p, _, _ => .prim p

/-- `Reflect.deleteProperty` on a plain object (model properties are always
configurable, so this always succeeds). -/
def jsDel : JVal → PKey → JVal
  | .obj fs, k => .obj (adel fs k)
  | .prim p, _ => .prim p

/-- JS key coercion as performed when a `string | number | symbol` is used as
a property key: numbers are coerced to their decimal string. Returns `none`
exactly on the key types `expectArgs` rejects. -/
def keyOf : JVal → Option PKey
  | .prim (.str s) => some (.str s)
  | .prim (.num n) => some (.str (toString n))
  | .prim (.sym i) => some (.sym i)
  | _ => none

/-- A path element is valid when it is a string, number or symbol
(the element check of `expectArgs` in `common.ts`). -/
def validKey (v : JVal) : Bool := (keyOf v).isSome

/-- Coerce a raw (already validated) path to property keys. -/
def toKeys (keys : List JVal) : List PKey := keys.filterMap keyOf

/-- `expectArgs` of `common.ts`: sequential entry validation shared by every
path operation.  `none` means the arguments were accepted; `some msg` models
the thrown `TypeError`.  (The `Array.isArray` check cannot fail in the model,
where the path is always a list.) -/
def expectArgs (f : String) (o : JVal) (keys : List JVal) : Option String :=
  if isPrimJ o then some (f ++ " called with non-object target")
  else if keys.length = 0 then some (f ++ " called with empty keys array")
  else match keys.find? (fun k => !(validKey k)) with
    | some _ => some (f ++ " called with invalid key")
    | none => none

/-- The `ReachResult` record of `deep.ts`. -/
structure ReachR where
  value : JVal
  index : Int
  reached : Bool
deriving DecidableEq

/-- Core loop of `ReflectDeep.has` (after validation), by recursion on the
path: for every key but the last, require presence and a non-primitive value;
the last key only needs to be present. The `[]` case is unreachable
(validation guarantees a non-empty path). -/
def hasCore : JVal → List PKey → Bool
  | _, [] => false
  | v, [k] => jsHas v k
  | v, k :: k' :: rest =>
    if jsHas v k then
      let c := jsGet v k
      if isPrimJ c then false else hasCore c (k' :: rest)
    else false

/-- Core loop of `ReflectDeep.get`: same walk as `has`, returning `undefined`
when an intermediate key is missing or resolves to a primitive, and the
terminal `Reflect.get` otherwise. -/
def getCore : JVal → List PKey → JVal
  | _, [] => .prim .undefined
  | v, [k] => jsGet v k
  | v, k :: k' :: rest =>
    if jsHas v k then
      let c := jsGet v k
      if isPrimJ c then .prim .undefined else getCore c (k' :: rest)
    else .prim .undefined

/-- Core loop of `ReflectDeep.set`: walk the intermediate keys, auto-creating
`{}` at a missing key; fail when an intermediate value is primitive; assign
at the terminal key.  Mutation is modelled by rebuilding the spine, which
agrees with in-place mutation on trees. -/
def setCore : JVal → List PKey → JVal → Bool × JVal
  | v, [], _ => (false, v)
  | v, [k], x => (true, jsSet v k x)
  | v, k :: k' :: rest, x =>
    let v1 := if jsHas v k then v else jsSet v k (.obj [])
    let c := jsGet v1 k
    if isPrimJ c then (false, v1)
    else
      let r := setCore c (k' :: rest) x
      (r.1, jsSet v1 k r.2)

/-- Core loop of `ReflectDeep.reach`, carrying the zero-based index of the
current key.  The `[]` case is the source's unreachable post-loop fallback
`{ value: current, index: -1, reached: false }`. -/
def reachCore : JVal → List PKey → Nat → ReachR
  | v, [], _ => ⟨v, -1, false⟩
  | v, [k], i =>
    if jsHas v k then ⟨jsGet v k, (i : Int), true⟩ else ⟨v, (i : Int) - 1, false⟩
  | v, k :: k' :: rest, i =>
    if jsHas v k then
      let c := jsGet v k
      if isPrimJ c then ⟨c, (i : Int), false⟩ else reachCore c (k' :: rest) (i + 1)
    else ⟨v, (i : Int) - 1, false⟩

/-- Core loop of `ReflectDeep.deleteProperty`: a missing intermediate key
returns `true` with nothing touched; a primitive intermediate returns
`false`; otherwise delete at the terminal key. -/
def delCore : JVal → List PKey → Bool × JVal
  | v, [] => (true, v)
  | v, [k] => (true, jsDel v k)
  | v, k :: k' :: rest =>
    if jsHas v k then
      let c := jsGet v k
      if isPrimJ c then (false, v)
      else
        let r := delCore c (k' :: rest)
        (r.1, jsSet v k r.2)
    else (true, v)

/-- Core loop of `ReflectDeep.defineProperty`: same walk as `set` (including
auto-creation), applying the descriptor at the terminal key.  A data
descriptor is modelled as the defined value. -/
def defineCore : JVal → List PKey → JVal → Bool × JVal
  | v, [], _ => (false, v)
  | v, [k], x => (true, jsSet v k x)
  | v, k :: k' :: rest, x =>
    let v1 := if jsHas v k then v else jsSet v k (.obj [])
    let c := jsGet v1 k
    if isPrimJ c then (false, v1)
    else
      let r := defineCore c (k' :: rest) x
      (r.1, jsSet v1 k r.2)

/-- `ReflectDeep.has` with entry validation. -/
def hasR (t : JVal) (keys : List JVal) : Except String Bool :=
  match expectArgs "has" t keys with
  | some e => .error e
  | none => .ok (hasCore t (toKeys keys))

/-- `ReflectDeep.get` with entry validation. -/
def getR (t : JVal) (keys : List JVal) : Except String JVal :=
  match expectArgs "get" t keys with
  | some e => .error e
  | none => .ok (getCore t (toKeys keys))

/-- `ReflectDeep.reach` with entry validation. -/
def reachR (t : JVal) (keys : List JVal) : Except String ReachR :=
  match expectArgs "reach" t keys with
  | some e => .error e
  | none => .ok (reachCore t (toKeys keys) 0)

/-- `ReflectDeep.set` with entry validation.  The second component is the
resulting target; on a validation error the target is returned untouched
(the source throws before any traversal or mutation). -/
def setR (t : JVal) (keys : List JVal) (x : JVal) : Except String Bool × JVal :=
  match expectArgs "set" t keys with
  | some e => (.error e, t)
  | none =>
    let r := setCore t (toKeys keys) x
    (.ok r.1, r.2)

/-- `ReflectDeep.deleteProperty` with entry validation; target returned
untouched on a validation error. -/
def delR (t : JVal) (keys : List JVal) : Except String Bool × JVal :=
  match expectArgs "deleteProperty" t keys with
  | some e => (.error e, t)
  | none =>
    let r := delCore t (toKeys keys)
    (.ok r.1, r.2)

/-- `ReflectDeep.defineProperty` with entry validation; target returned
untouched on a validation error. -/
def defineR (t : JVal) (keys : List JVal) (d : JVal) : Except String Bool × JVal :=
  match expectArgs "defineProperty" t keys with
  | some e => (.error e, t)
  | none =>
    let r := defineCore t (toKeys keys) d
    (.ok r.1, r.2)

/-- The walk underlying every path operation, restricted to intermediate
steps: follow each key through an existing, non-primitive value.  `some w`
means all given keys resolved and `w` is the container reached. -/
def walk : JVal → List PKey → Option JVal
  | v, [] => some v
  | v, k :: r =>
    if jsHas v k then
      let c := jsGet v k
      if isPrimJ c then none else walk c r
    else none

/-! ## Heap model for the structural cloner

`deepClone` distinguishes values by reference identity (the `WeakMap` cache),
preserves sharing and survives cycles, none of which a tree can express.  The
model therefore uses an explicit heap: composite values live at numeric
addresses (in allocation order, as a JS engine would create them) and `Val`
is a primitive or an address.  `deepClone cache o` becomes a fuel-indexed
function threading the heap and the cache; fuel exhaustion is reported as a
distinguished result, so that termination of the original recursion is the
statement that enough fuel exists. -/

/-- A runtime value: a primitive or a reference to a heap node. -/
inductive Val where
  | prim (p : Prim)
  | ref (a : Nat)
deriving DecidableEq

/-- A composite heap node; one constructor per runtime category that
`deepClone` dispatches on, in the source's vocabulary.  Binary values
(`ArrayBuffer`, typed arrays, `DataView`, Node `Buffer`) carry their visible
bytes directly: `deepClone` copies them byte-for-byte without structural
recursion, so the backing-store indirection is immaterial. -/
inductive Node where
  | obj (fields : List (PKey × Val))
  | arr (len : Nat) (elems : List (Nat × Val))
  | map (entries : List (Val × Val))
  | set (elems : List Val)
  | date (t : Int)
  | regex (srcPat flags : String)
  | weakMap
  | weakSet
  | weakRef (target : Option Val)
  | promise
  | sharedArrayBuf (bytes : List Nat)
  | typedArr (bytes : List Int)
  | dataView (bytes : List Nat)
  | arrayBuf (bytes : List Nat)
  | nodeBuffer (bytes : List Nat)
  | boxed (p : Prim)
deriving DecidableEq

/-- The heap: the next fresh address and the allocated nodes.  Stores prepend,
so `aget` sees the newest binding of an address. -/
structure Heap where
  next : Nat
  nodes : List (Nat × Node)
deriving DecidableEq

/-- Look an address up in the heap. -/
def Heap.find (h : Heap) (a : Nat) : Option Node := aget h.nodes a

/-- Allocate a node at the next fresh address. -/
def Heap.alloc (h : Heap) (n : Node) : Heap := ⟨h.next + 1, (h.next, n) :: h.nodes⟩

/-- Overwrite the node at an (already allocated) address. -/
def Heap.store (h : Heap) (a : Nat) (n : Node) : Heap := ⟨h.next, (a, n) :: h.nodes⟩

/-- The `VisitedSet`: the per-call `WeakMap` from original address to the
address of its (possibly still being populated) clone. -/
abbrev Cache := List (Nat × Nat)

/-- Result of a clone step: the evolved heap and cache with the produced
value, a thrown `TypeError`, or fuel exhaustion (a model artefact marking
non-termination within the given budget). -/
inductive CRes where
  | ok (h : Heap) (c : Cache) (v : Val)
  | typeError
  | outOfFuel
deriving DecidableEq

/-- Result of populating an already allocated clone node. -/
inductive PRes where
  | ok (h : Heap) (c : Cache)
  | typeError
  | outOfFuel
deriving DecidableEq

/-- Whether a value may be the target of `new WeakRef(...)`: objects and
symbols only; anything else makes the constructor throw. -/
def weakable : Val → Bool
  | .ref _ => true
  | .prim (.sym _) => true
  | _ => false

/-- The population loop of the generic-object branch: clone each own field's
value with `cl` and assign it onto the clone node at `r` (`Reflect.set` per
key).  The source's `Reflect.has` re-check on own keys is identically true on
plain data and is omitted. -/
def popObjWith (cl : Heap → Cache → Val → CRes) (r : Nat) :
    Heap → Cache → List (PKey × Val) → PRes
  | h, c, [] => .ok h c
  | h, c, (k, v) :: rest =>
    match cl h c v with
    | .ok h1 c1 v1 =>
      let fs := match h1.find r with | some (.obj fs) => fs | _ => []
      popObjWith cl r (h1.store r (.obj (aset fs k v1))) c1 rest
    | .typeError => .typeError
    | .outOfFuel => .outOfFuel

/-- The population loop of the array branch: `for (i = 0; i < len; i++)
if (i in o) result[i] = deepClone(cache, o[i])`.  Assigning index `i` grows
the clone's `length` to at least `i + 1`, exactly as JS element assignment
does. -/
def popArrWith (cl : Heap → Cache → Val → CRes) (r : Nat) (src : List (Nat × Val)) :
    Heap → Cache → List Nat → PRes
  | h, c, [] => .ok h c
  | h, c, i :: rest =>
    match aget src i with
    | none => popArrWith cl r src h c rest
    | some v =>
      match cl h c v with
      | .ok h1 c1 v1 =>
        let p := match h1.find r with | some (.arr len es) => (len, es) | _ => (0, [])
        popArrWith cl r src (h1.store r (.arr (max p.1 (i + 1)) (aset p.2 i v1))) c1 rest
      | .typeError => .typeError
      | .outOfFuel => .outOfFuel

/-- The population loop of the map branch: clone key and value of each entry
in iteration order and insert into the clone. -/
def popMapWith (cl : Heap → Cache → Val → CRes) (r : Nat) :
    Heap → Cache → List (Val × Val) → PRes
  | h, c, [] => .ok h c
  | h, c, (k, v) :: rest =>
    match cl h c k with
    | .ok h1 c1 k1 =>
      match cl h1 c1 v with
      | .ok h2 c2 v1 =>
        let es := match h2.find r with | some (.map es) => es | _ => []
        popMapWith cl r (h2.store r (.map (aset es k1 v1))) c2 rest
      | .typeError => .typeError
      | .outOfFuel => .outOfFuel
    | .typeError => .typeError
    | .outOfFuel => .outOfFuel

/-- The population loop of the set branch: clone each element in iteration
order and add it to the clone. -/
def popSetWith (cl : Heap → Cache → Val → CRes) (r : Nat) :
    Heap → Cache → List Val → PRes
  | h, c, [] => .ok h c
  | h, c, v :: rest =>
    match cl h c v with
    | .ok h1 c1 v1 =>
      let es := match h1.find r with | some (.set es) => es | _ => []
      popSetWith cl r (h1.store r (.set (if es.contains v1 then es else es ++ [v1]))) c1 rest
    | .typeError => .typeError
    | .outOfFuel => .outOfFuel

/-- One step of `deepClone(cache, o)` of `deep.ts`, parameterized by the
function `cl` used for recursive calls.  Branches appear in the source's
dispatch order: primitives returned unchanged; cache hit; boxed primitives;
arrays, maps and sets (allocate, register in the cache, then populate);
dates and regexes (fresh copy, no registration); `WeakMap`, `WeakSet`,
`Promise` and `SharedArrayBuffer` aliased; `WeakRef` re-wrapped around the
clone of its dereferenced target (throwing when the result cannot be held
weakly, as `new WeakRef` does); binary values copied byte-for-byte; and the
generic-object fallback (allocate with the source's prototype link, register,
then copy own keys one by one).  A dangling address cannot arise from a JS
heap and is returned unchanged. -/
def deepCloneStep (cl : Heap → Cache → Val → CRes) (h : Heap) (c : Cache) (v : Val) : CRes :=
  match v with
  | .prim p => .ok h c (.prim p)
  | .ref a =>
    match aget c a with
    | some r => .ok h c (.ref r)
    | none =>
      match h.find a with
      | none => .ok h c (.ref a)
      | some nd =>
        match nd with
        | .boxed p => .ok (h.alloc (.boxed p)) c (.ref h.next)
        | .arr len elems =>
          match popArrWith cl h.next elems (h.alloc (.arr 0 [])) ((a, h.next) :: c)
              (List.range len) with
          | .ok h2 c2 => .ok h2 c2 (.ref h.next)
          | .typeError => .typeError
          | .outOfFuel => .outOfFuel
        | .map entries =>
          match popMapWith cl h.next (h.alloc (.map [])) ((a, h.next) :: c) entries with
          | .ok h2 c2 => .ok h2 c2 (.ref h.next)
          | .typeError => .typeError
          | .outOfFuel => .outOfFuel
        | .set elems =>
          match popSetWith cl h.next (h.alloc (.set [])) ((a, h.next) :: c) elems with
          | .ok h2 c2 => .ok h2 c2 (.ref h.next)
          | .typeError => .typeError
          | .outOfFuel => .outOfFuel
        | .date t => .ok (h.alloc (.date t)) c (.ref h.next)
        | .regex s f => .ok (h.alloc (.regex s f)) c (.ref h.next)
        | .weakMap => .ok h c (.ref a)
        | .weakSet => .ok h c (.ref a)
        | .weakRef t =>
          match cl h c (t.getD (.prim .undefined)) with
          | .ok h1 c1 v1 =>
            if weakable v1 then .ok (h1.alloc (.weakRef (some v1))) c1 (.ref h1.next)
            else .typeError
          | .typeError => .typeError
          | .outOfFuel => .outOfFuel
        | .promise => .ok h c (.ref a)
        | .sharedArrayBuf _ => .ok h c (.ref a)
        | .typedArr bs => .ok (h.alloc (.typedArr bs)) c (.ref h.next)
        | .dataView bs => .ok (h.alloc (.dataView bs)) c (.ref h.next)
        | .arrayBuf bs => .ok (h.alloc (.arrayBuf bs)) c (.ref h.next)
        | .nodeBuffer bs => .ok (h.alloc (.nodeBuffer bs)) c (.ref h.next)
        | .obj fields =>
          match popObjWith cl h.next (h.alloc (.obj [])) ((a, h.next) :: c) fields with
          | .ok h2 c2 => .ok h2 c2 (.ref h.next)
          | .typeError => .typeError
          | .outOfFuel => .outOfFuel

/-- `deepClone(cache, o)` of `deep.ts`, fuel-indexed: every recursive call of
the source runs with one unit of fuel less. -/
def deepCloneF : Nat → Heap → Cache → Val → CRes
  | 0 => fun _ _ _ => .outOfFuel
  | fuel + 1 => deepCloneStep (deepCloneF fuel)

/-- Fuel that provably suffices for any value of a well-formed heap (see the
termination development below). -/
def cloneFuel (h : Heap) : Nat := (h.next + 1) * (h.next + 1) + h.next + 2

/-- `ReflectDeep.clone`: run `deepClone` with a fresh `WeakMap` cache. -/
def clone (h : Heap) (v : Val) : CRes := deepCloneF (cloneFuel h) h [] v

/-- All references in a value lie below `n`. -/
def Val.refLt (v : Val) (n : Nat) : Bool :=
  match v with
  | .ref a => decide (a < n)
  | .prim _ => true

/-- All references stored in a node lie below `n`. -/
def Node.refsLt (nd : Node) (n : Nat) : Bool :=
  match nd with
  | .obj fs => fs.all (fun p => p.2.refLt n)
  | .arr _ es => es.all (fun p => p.2.refLt n)
  | .map es => es.all (fun p => p.1.refLt n && p.2.refLt n)
  | .set es => es.all (fun v => v.refLt n)
  | .weakRef (some v) => v.refLt n
  | _ => true

/-- A `WeakRef`'s target was created before the `WeakRef` itself: its target
is fixed at construction, so in allocation order its address is smaller.
Every heap a JS program can build satisfies this. -/
def wkDecB (a : Nat) (nd : Node) : Bool :=
  match nd with
  | .weakRef (some (.ref b)) => decide (b < a)
  | _ => true

/-- Well-formed heap: addresses below `next`, references closed, and
`WeakRef` targets older than their `WeakRef` (acyclic dereference chains). -/
def wfHeapB (h : Heap) : Bool :=
  h.nodes.all (fun p => decide (p.1 < h.next) && p.2.refsLt h.next && wkDecB p.1 p.2)

/-- No `WeakRef` in the heap has been cleared (and every target is an object
or symbol, the only targets `new WeakRef` accepts). -/
def wkGoodB (h : Heap) : Bool :=
  h.nodes.all (fun p =>
    match p.2 with
    | .weakRef t => match t with | some v => weakable v | none => false
    | _ => true)

/-- The branches that register their clone in the `VisitedSet` before
populating it: arrays, maps, sets and generic objects. -/
def Node.registering : Node → Bool
  | .obj _ => true
  | .arr _ _ => true
  | .map _ => true
  | .set _ => true
  | _ => false

/-- The `length` of the cloned array after the population loop: each executed
assignment `result[i] = ...` raises it to `i + 1`. -/
def lenAfter (L : Nat) : List (Nat × Val) → Nat
  | [] => L
  | (i, _) :: r => lenAfter (max L (i + 1)) r

/-- The `length` of the array clone after running the population loop over
the given indices: each present index `i` raises it to at least `i + 1`. -/
def arrLenFold (src : List (Nat × Val)) : Nat → List Nat → Nat
  | L, [] => L
  | L, i :: rest => arrLenFold src (if (aget src i).isSome then max L (i + 1) else L) rest

/-- Strictly ascending entry keys, all at least `lo` (the shape of a JS
sparse array's present indices). -/
def ascKeysB (lo : Nat) : List (Nat × Val) → Bool
  | [] => true
  | (i, _) :: r => decide (lo ≤ i) && ascKeysB (i + 1) r

/-! ## Properties of the cloner used in the development -/

/-- Heap extension: `next` grows and already allocated addresses keep their
nodes (the cloner only allocates fresh addresses and populates them). -/
def HeapExt (h h' : Heap) : Prop :=
  h.next ≤ h'.next ∧ ∀ a, a < h.next → h'.find a = h.find a

/-- Heap extension away from the address `r` currently being populated. -/
def HeapExtAt (r : Nat) (h h' : Heap) : Prop :=
  h.next ≤ h'.next ∧ ∀ a, a < h.next → a ≠ r → h'.find a = h.find a

/-- Cache bindings are never lost or overwritten. -/
def CachePres (c c' : Cache) : Prop := ∀ k r, aget c k = some r → aget c' k = some r

/-- Every address below `N` carries a node with references below `N` and a
creation-ordered `WeakRef` target. -/
def HeapOkBelow (h : Heap) (N : Nat) : Prop :=
  ∀ a nd, a < N → h.find a = some nd → nd.refsLt N = true ∧ wkDecB a nd = true

/-- All cache keys lie below `N`. -/
def CacheBelow (c : Cache) (N : Nat) : Prop := ∀ p ∈ c, p.1 < N

/-- The number of addresses below `N` not yet registered in the cache: the
quantity that shrinks whenever a registering branch runs. -/
def unhit (N : Nat) (c : Cache) : Nat :=
  ((Finset.range N).filter (fun a => aget c a = none)).card

/-- Termination rank of the value being cloned: `WeakRef` chains descend in
allocation order, so the target's rank is below the `WeakRef`'s. -/
def rankV : Val → Nat
  | .ref a => a + 1
  | .prim _ => 0

/-- No `WeakRef` node of the heap is cleared (and every target can be held
weakly). -/
def WkGoodHeap (h : Heap) : Prop :=
  ∀ a t, h.find a = some (.weakRef t) → ∃ v, t = some v ∧ weakable v = true

/-! ## Concrete values used in the closed instances below -/

/-- Key `"a"`. -/
def kA : PKey := .str "a"

/-- Key `"b"`. -/
def kB : PKey := .str "b"

/-- Key `"c"`. -/
def kC : PKey := .str "c"

/-- Key `"x"`. -/
def kX : PKey := .str "x"

/-- Key `"self"`. -/
def kSelf : PKey := .str "self"

/-- Raw path element `'a'`. -/
def rawA : JVal := .prim (.str "a")

/-- Raw path element `'b'`. -/
def rawB : JVal := .prim (.str "b")

/-- Raw path element `'c'`. -/
def rawC : JVal := .prim (.str "c")

/-- Raw path element `'x'`. -/
def rawX : JVal := .prim (.str "x")

/-- The object `{a: {b: {c: 'v'}}}` of the spec's `reach` examples. -/
def exObj : JVal := .obj [(kA, .obj [(kB, .obj [(kC, .prim (.str "v"))])])]

/-- A heap holding only the self-referential object `o` with `o.self === o`,
at address 0. -/
def hSelf : Heap := ⟨1, [(0, .obj [(kSelf, .ref 0)])]⟩

/-- A heap with a `Date` at address 0 shared by both fields of
`{a: shared, b: shared}` at address 1. -/
def hDateShared : Heap := ⟨2, [(0, .date 0), (1, .obj [(kA, .ref 0), (kB, .ref 0)])]⟩

/-- A heap with an empty plain object at address 0 shared by both fields of
`{a: shared, b: shared}` at address 1. -/
def hObjShared : Heap := ⟨2, [(0, .obj []), (1, .obj [(kA, .ref 0), (kB, .ref 0)])]⟩

/-- A heap holding the sparse array `[1, , , 4]` at address 0. -/
def hSparse : Heap := ⟨1, [(0, .arr 4 [(0, .prim (.num 1)), (3, .prim (.num 4))])]⟩

/-- A heap holding a sparse array of length 2 whose only present index is 0
(a trailing hole). -/
def hTrailingHole : Heap := ⟨1, [(0, .arr 2 [(0, .prim (.num 1))])]⟩

/-- A heap with a cycle through a `WeakRef`: the object `{x: w}` at address 0
and the `WeakRef` `w` at address 1 dereferencing to it. -/
def hWkCycle : Heap := ⟨2, [(0, .obj [(kX, .ref 1)]), (1, .weakRef (some (.ref 0)))]⟩

/-- A heap holding a cleared `WeakRef` (its target was collected, `deref()`
returns `undefined`) at address 0. -/
def hCleared : Heap := ⟨1, [(0, .weakRef none)]⟩

/-- Extract the field values of the clone result of an object: the address
the clone returned, its node's fields.  Used to observe sharing. -/
def cloneField (h : Heap) (v : Val) (k : PKey) : Option Val :=
  match clone h v with
  | .ok h' _ (.ref q) =>
    match h'.find q with
    | some (.obj fs) => aget fs k
    | _ => none
  | _ => none

/-! ## Basic lemmas about association lists and plain-object steps -/

theorem aget_cons {κ α : Type} [DecidableEq κ] (k : κ) (a : α) (l : List (κ × α)) (k' : κ) :
    aget ((k, a) :: l) k' = if k' = k then some a else aget l k' := rfl

theorem aget_aset {κ α : Type} [DecidableEq κ] (l : List (κ × α)) (k : κ) (a : α) (k' : κ) :
    aget (aset l k a) k' = if k' = k then some a else aget l k' := by
  induction l with
  | nil => simp [aset, aget]
  | cons p r ih =>
    obtain ⟨kk, aa⟩ := p
    by_cases hk : k = kk
    · subst hk
      by_cases h1 : k' = k
      · simp [aset, aget, h1]
      · simp [aset, aget, h1]
    · simp only [aset, if_neg hk]
      rw [aget_cons, aget_cons, ih]
      by_cases h1 : k' = kk
      · subst h1
        simp [Ne.symm hk]
      · simp [h1]

theorem aset_eq_of_aget {κ α : Type} [DecidableEq κ] (l : List (κ × α)) (k : κ) (a : α)
    (h : aget l k = some a) : aset l k a = l := by
  induction l with
  | nil => simp [aget] at h
  | cons p r ih =>
    obtain ⟨kk, aa⟩ := p
    rw [aget_cons] at h
    by_cases hk : k = kk
    · subst hk
      simp at h
      simp [aset, h]
    · rw [if_neg hk] at h
      simp [aset, hk, ih h]

theorem jsHas_obj (fs : List (PKey × JVal)) (k : PKey) :
    jsHas (.obj fs) k = (aget fs k).isSome := rfl

theorem jsGet_obj (fs : List (PKey × JVal)) (k : PKey) :
    jsGet (.obj fs) k = (aget fs k).getD (.prim .undefined) := rfl

theorem jsGet_jsSet_self (fs : List (PKey × JVal)) (k : PKey) (v : JVal) :
    jsGet (jsSet (.obj fs) k v) k = v := by
  simp [jsSet, jsGet, aget_aset]

theorem jsHas_jsSet_self (fs : List (PKey × JVal)) (k : PKey) (v : JVal) :
    jsHas (jsSet (.obj fs) k v) k = true := by
  simp [jsSet, jsHas, aget_aset]

theorem jsSet_get_self (fs : List (PKey × JVal)) (k : PKey)
    (h : jsHas (.obj fs) k = true) : jsSet (.obj fs) k (jsGet (.obj fs) k) = .obj fs := by
  rw [jsHas_obj, Option.isSome_iff_exists] at h
  obtain ⟨w, hw⟩ := h
  simp [jsSet, jsGet, hw, aset_eq_of_aget fs k w hw]

theorem jsHas_prim (p : Prim) (k : PKey) : jsHas (.prim p) k = false := rfl

theorem obj_of_jsHas {v : JVal} {k : PKey} (h : jsHas v k = true) :
    ∃ fs, v = .obj fs := by
  cases v with
  | prim p => simp [jsHas] at h
  | obj fs => exact ⟨fs, rfl⟩

/-! ## Lemmas about the shared walk -/

theorem walk_nil (v : JVal) : walk v [] = some v := rfl

theorem walk_cons (v : JVal) (k : PKey) (r : List PKey) :
    walk v (k :: r) =
      if jsHas v k then (if isPrimJ (jsGet v k) then none else walk (jsGet v k) r)
      else none := rfl

theorem walk_cons_some {v : JVal} {k : PKey} {r : List PKey} {w : JVal}
    (h : walk v (k :: r) = some w) :
    jsHas v k = true ∧ isPrimJ (jsGet v k) = false ∧ walk (jsGet v k) r = some w := by
  rw [walk_cons] at h
  by_cases h1 : jsHas v k
  · rw [if_pos h1] at h
    by_cases h2 : isPrimJ (jsGet v k)
    · rw [if_pos h2] at h
      exact absurd h (by simp)
    · rw [if_neg h2] at h
      exact ⟨h1, by simp [h2], h⟩
  · rw [if_neg h1] at h
    exact absurd h (by simp)

/-! ## Lemmas about `reach` -/

theorem reachCore_step {v : JVal} {k : PKey} {rest : List PKey} {i : Nat}
    (h1 : jsHas v k = true) (h2 : isPrimJ (jsGet v k) = false) (hne : rest ≠ []) :
    reachCore v (k :: rest) i = reachCore (jsGet v k) rest (i + 1) := by
  cases rest with
  | nil => exact absurd rfl hne
  | cons k' r => simp [reachCore, h1, h2]

theorem reachCore_missing {v : JVal} {k : PKey} (rest : List PKey) {i : Nat}
    (h1 : jsHas v k = false) :
    reachCore v (k :: rest) i = ⟨v, (i : Int) - 1, false⟩ := by
  cases rest with
  | nil => simp [reachCore, h1]
  | cons k' r => simp [reachCore, h1]

theorem reachCore_atomic {v : JVal} {k : PKey} {rest : List PKey} {i : Nat}
    (h1 : jsHas v k = true) (h2 : isPrimJ (jsGet v k) = true) (hne : rest ≠ []) :
    reachCore v (k :: rest) i = ⟨jsGet v k, (i : Int), false⟩ := by
  cases rest with
  | nil => exact absurd rfl hne
  | cons k' r => simp [reachCore, h1, h2]

theorem reachCore_resolved {pre : List PKey} {v w : JVal} {k : PKey} {i : Nat}
    (hw : walk v pre = some w) (hk : jsHas w k = true) :
    reachCore v (pre ++ [k]) i = ⟨jsGet w k, (i : Int) + pre.length, true⟩ := by
  induction pre generalizing v i with
  | nil =>
    rw [walk_nil] at hw
    injection hw with hw
    subst hw
    simp [reachCore, hk]
  | cons k0 pre' ih =>
    obtain ⟨h1, h2, h3⟩ := walk_cons_some hw
    rw [List.cons_append, reachCore_step h1 h2 (by simp), ih h3]
    congr 1
    simp only [List.length_cons]
    push_cast
    ring

theorem reachCore_stops_missing {pre : List PKey} {v w : JVal} {k : PKey}
    (suf : List PKey) {i : Nat}
    (hw : walk v pre = some w) (hk : jsHas w k = false) :
    reachCore v (pre ++ k :: suf) i = ⟨w, (i : Int) + pre.length - 1, false⟩ := by
  induction pre generalizing v i with
  | nil =>
    rw [walk_nil] at hw
    injection hw with hw
    subst hw
    rw [List.nil_append, reachCore_missing suf hk]
    simp
  | cons k0 pre' ih =>
    obtain ⟨h1, h2, h3⟩ := walk_cons_some hw
    rw [List.cons_append, reachCore_step h1 h2 (by simp), ih h3]
    congr 1
    simp only [List.length_cons]
    push_cast
    ring

theorem reachCore_stops_atomic {pre : List PKey} {v w : JVal} {k : PKey}
    {suf : List PKey} {i : Nat}
    (hw : walk v pre = some w) (hk : jsHas w k = true)
    (hp : isPrimJ (jsGet w k) = true) (hsuf : suf ≠ []) :
    reachCore v (pre ++ k :: suf) i = ⟨jsGet w k, (i : Int) + pre.length, false⟩ := by
  induction pre generalizing v i with
  | nil =>
    rw [walk_nil] at hw
    injection hw with hw
    subst hw
    rw [List.nil_append, reachCore_atomic hk hp hsuf]
    simp
  | cons k0 pre' ih =>
    obtain ⟨h1, h2, h3⟩ := walk_cons_some hw
    rw [List.cons_append, reachCore_step h1 h2 (by simp), ih h3]
    congr 1
    simp only [List.length_cons]
    push_cast
    ring
/-! ## Lemmas about `set`, `deleteProperty` and the wrappers -/

theorem obj_of_not_prim {v : JVal} (h : isPrimJ v = false) : ∃ fs, v = .obj fs := by
  cases v with
  | prim p => simp [isPrimJ] at h
  | obj fs => exact ⟨fs, rfl⟩

theorem isPrimJ_jsSet (v : JVal) (k : PKey) (x : JVal) :
    isPrimJ (jsSet v k x) = isPrimJ v := by
  cases v <;> rfl

theorem getCore_step {v : JVal} {k : PKey} {rest : List PKey}
    (h1 : jsHas v k = true) (h2 : isPrimJ (jsGet v k) = false) (hne : rest ≠ []) :
    getCore v (k :: rest) = getCore (jsGet v k) rest := by
  cases rest with
  | nil => exact absurd rfl hne
  | cons k' r => simp [getCore, h1, h2]

theorem hasCore_step {v : JVal} {k : PKey} {rest : List PKey}
    (h1 : jsHas v k = true) (h2 : isPrimJ (jsGet v k) = false) (hne : rest ≠ []) :
    hasCore v (k :: rest) = hasCore (jsGet v k) rest := by
  cases rest with
  | nil => exact absurd rfl hne
  | cons k' r => simp [hasCore, h1, h2]

theorem setCore_step {v : JVal} {k : PKey} {rest : List PKey} {x : JVal}
    (h1 : jsHas v k = true) (h2 : isPrimJ (jsGet v k) = false) (hne : rest ≠ []) :
    setCore v (k :: rest) x =
      ((setCore (jsGet v k) rest x).1, jsSet v k (setCore (jsGet v k) rest x).2) := by
  cases rest with
  | nil => exact absurd rfl hne
  | cons k' r => simp [setCore, h1, h2]

theorem setCore_step_missing {fs : List (PKey × JVal)} {k : PKey} {rest : List PKey} {x : JVal}
    (h1 : jsHas (.obj fs) k = false) (hne : rest ≠ []) :
    setCore (.obj fs) (k :: rest) x =
      ((setCore (.obj []) rest x).1,
        jsSet (jsSet (.obj fs) k (.obj [])) k (setCore (.obj []) rest x).2) := by
  cases rest with
  | nil => exact absurd rfl hne
  | cons k' r =>
    have hg : jsGet (jsSet (.obj fs) k (.obj [])) k = .obj [] := jsGet_jsSet_self fs k (.obj [])
    simp [setCore, h1, hg, isPrimJ]

theorem setCore_atomic_stop {v : JVal} {k : PKey} {rest : List PKey} {x : JVal}
    (h1 : jsHas v k = true) (h2 : isPrimJ (jsGet v k) = true) (hne : rest ≠ []) :
    setCore v (k :: rest) x = (false, v) := by
  cases rest with
  | nil => exact absurd rfl hne
  | cons k' r => simp [setCore, h1, h2]

theorem setCore_snd_obj (fs : List (PKey × JVal)) (ks : List PKey) (x : JVal) :
    ∃ gs, (setCore (.obj fs) ks x).2 = .obj gs := by
  cases ks with
  | nil => exact ⟨fs, rfl⟩
  | cons k rest =>
    cases rest with
    | nil => exact ⟨aset fs k x, rfl⟩
    | cons k' r =>
      by_cases h1 : jsHas (.obj fs) k = true
      · by_cases h2 : isPrimJ (jsGet (.obj fs) k) = true
        · rw [setCore_atomic_stop h1 h2 (by simp)]
          exact ⟨fs, rfl⟩
        · rw [setCore_step h1 (by simpa using h2) (by simp)]
          exact ⟨aset fs k (setCore (jsGet (.obj fs) k) (k' :: r) x).2, rfl⟩
      · rw [setCore_step_missing (by simpa using h1) (by simp)]
        exact ⟨aset (aset fs k (.obj [])) k (setCore (.obj []) (k' :: r) x).2, rfl⟩

theorem setCore_fresh (ks : List PKey) (x : JVal) (h : ks ≠ []) :
    (setCore (.obj []) ks x).1 = true := by
  induction ks with
  | nil => exact absurd rfl h
  | cons k rest ih =>
    cases rest with
    | nil => rfl
    | cons k' r =>
      have h1 : jsHas (.obj ([] : List (PKey × JVal))) k = false := by simp [jsHas, aget]
      rw [setCore_step_missing h1 (by simp)]
      exact ih (by simp)

theorem setCore_roundtrip (ks : List PKey) : ∀ (v x : JVal), isPrimJ v = false →
    (setCore v ks x).1 = true → ks ≠ [] →
    getCore (setCore v ks x).2 ks = x ∧ hasCore (setCore v ks x).2 ks = true := by
  induction ks with
  | nil => exact fun v x _ _ h => absurd rfl h
  | cons k rest ih =>
    intro v x hv hfst _
    obtain ⟨fs, rfl⟩ := obj_of_not_prim hv
    cases rest with
    | nil =>
      exact ⟨jsGet_jsSet_self fs k x, jsHas_jsSet_self fs k x⟩
    | cons k' r =>
      by_cases h1 : jsHas (.obj fs) k = true
      · by_cases h2 : isPrimJ (jsGet (.obj fs) k) = true
        · rw [setCore_atomic_stop h1 h2 (by simp)] at hfst
          simp at hfst
        · have h2' : isPrimJ (jsGet (.obj fs) k) = false := by simpa using h2
          rw [setCore_step h1 h2' (by simp)] at hfst ⊢
          have hrec := ih (jsGet (.obj fs) k) x h2' hfst (by simp)
          have hsp : isPrimJ (setCore (jsGet (.obj fs) k) (k' :: r) x).2 = false := by
            obtain ⟨gs, hgs⟩ := obj_of_not_prim h2'
            rw [hgs]
            obtain ⟨hs, hh⟩ := setCore_snd_obj gs (k' :: r) x
            rw [hh]
            rfl
          have hhset : jsHas (jsSet (.obj fs) k
              (setCore (jsGet (.obj fs) k) (k' :: r) x).2) k = true :=
            jsHas_jsSet_self fs k _
          have hgset : jsGet (jsSet (.obj fs) k
              (setCore (jsGet (.obj fs) k) (k' :: r) x).2) k =
              (setCore (jsGet (.obj fs) k) (k' :: r) x).2 :=
            jsGet_jsSet_self fs k _
          constructor
          · rw [getCore_step hhset (by rw [hgset]; exact hsp) (by simp), hgset]
            exact hrec.1
          · rw [hasCore_step hhset (by rw [hgset]; exact hsp) (by simp), hgset]
            exact hrec.2
      · have h1' : jsHas (.obj fs) k = false := by simpa using h1
        rw [setCore_step_missing h1' (by simp)] at hfst ⊢
        have hrec := ih (.obj []) x rfl hfst (by simp)
        have hsp : isPrimJ (setCore (.obj ([] : List (PKey × JVal))) (k' :: r) x).2 = false := by
          obtain ⟨hs, hh⟩ := setCore_snd_obj [] (k' :: r) x
          rw [hh]
          rfl
        have hobj : jsSet (.obj fs) k (.obj ([] : List (PKey × JVal))) =
            .obj (aset fs k (.obj [])) := rfl
        rw [hobj]
        have hhset : jsHas (jsSet (.obj (aset fs k (.obj [])))
            k (setCore (.obj ([] : List (PKey × JVal))) (k' :: r) x).2) k = true :=
          jsHas_jsSet_self _ k _
        have hgset : jsGet (jsSet (.obj (aset fs k (.obj [])))
            k (setCore (.obj ([] : List (PKey × JVal))) (k' :: r) x).2) k =
            (setCore (.obj ([] : List (PKey × JVal))) (k' :: r) x).2 :=
          jsGet_jsSet_self _ k _
        constructor
        · rw [getCore_step hhset (by rw [hgset]; exact hsp) (by simp), hgset]
          exact hrec.1
        · rw [hasCore_step hhset (by rw [hgset]; exact hsp) (by simp), hgset]
          exact hrec.2

theorem setCore_blocked {pre : List PKey} {v w : JVal} {k : PKey} {suf : List PKey} {x : JVal}
    (hw : walk v pre = some w) (hk : jsHas w k = true) (hp : isPrimJ (jsGet w k) = true)
    (hsuf : suf ≠ []) : (setCore v (pre ++ k :: suf) x).1 = false := by
  induction pre generalizing v with
  | nil =>
    rw [walk_nil] at hw
    injection hw with hw
    subst hw
    rw [List.nil_append, setCore_atomic_stop hk hp hsuf]
  | cons k0 pre' ih =>
    obtain ⟨h1, h2, h3⟩ := walk_cons_some hw
    rw [List.cons_append, setCore_step h1 h2 (by simp)]
    exact ih h3

theorem setCore_false_decomp (ks : List PKey) : ∀ (fs : List (PKey × JVal)) (x : JVal),
    (setCore (.obj fs) ks x).1 = false → ks ≠ [] →
    ∃ pre k suf w, ks = pre ++ k :: suf ∧ suf ≠ [] ∧ walk (.obj fs) pre = some w ∧
      jsHas w k = true ∧ isPrimJ (jsGet w k) = true := by
  induction ks with
  | nil => exact fun fs x _ h => absurd rfl h
  | cons k rest ih =>
    intro fs x hf _
    cases rest with
    | nil => simp [setCore] at hf
    | cons k' r =>
      by_cases h1 : jsHas (.obj fs) k = true
      · by_cases h2 : isPrimJ (jsGet (.obj fs) k) = true
        · exact ⟨[], k, k' :: r, .obj fs, rfl, by simp, walk_nil _, h1, h2⟩
        · have h2' : isPrimJ (jsGet (.obj fs) k) = false := by simpa using h2
          rw [setCore_step h1 h2' (by simp)] at hf
          obtain ⟨gs, hgs⟩ := obj_of_not_prim h2'
          rw [hgs] at hf
          obtain ⟨pre, kk, suf, w, hks, hsuf, hwalk, hhk, hhp⟩ := ih gs x hf (by simp)
          refine ⟨k :: pre, kk, suf, w, by simp [hks], hsuf, ?_, hhk, hhp⟩
          rw [walk_cons, if_pos h1, if_neg (by simp [h2']), hgs]
          exact hwalk
      · have h1' : jsHas (.obj fs) k = false := by simpa using h1
        rw [setCore_step_missing h1' (by simp)] at hf
        rw [setCore_fresh (k' :: r) x (by simp)] at hf
        simp at hf

theorem delCore_step {v : JVal} {k : PKey} {rest : List PKey}
    (h1 : jsHas v k = true) (h2 : isPrimJ (jsGet v k) = false) (hne : rest ≠ []) :
    delCore v (k :: rest) =
      ((delCore (jsGet v k) rest).1, jsSet v k (delCore (jsGet v k) rest).2) := by
  cases rest with
  | nil => exact absurd rfl hne
  | cons k' r => simp [delCore, h1, h2]

theorem delCore_vacuous {pre : List PKey} {v w : JVal} {k : PKey} {suf : List PKey}
    (hw : walk v pre = some w) (hk : jsHas w k = false) (hsuf : suf ≠ []) :
    delCore v (pre ++ k :: suf) = (true, v) := by
  induction pre generalizing v with
  | nil =>
    rw [walk_nil] at hw
    injection hw with hw
    subst hw
    cases suf with
    | nil => exact absurd rfl hsuf
    | cons k' r => simp [delCore, hk]
  | cons k0 pre' ih =>
    obtain ⟨h1, h2, h3⟩ := walk_cons_some hw
    rw [List.cons_append, delCore_step h1 h2 (by simp), ih h3]
    obtain ⟨fs, rfl⟩ := obj_of_jsHas h1
    rw [jsSet_get_self fs k0 h1]

theorem delCore_atomic {pre : List PKey} {v w : JVal} {k : PKey} {suf : List PKey}
    (hw : walk v pre = some w) (hk : jsHas w k = true)
    (hp : isPrimJ (jsGet w k) = true) (hsuf : suf ≠ []) :
    delCore v (pre ++ k :: suf) = (false, v) := by
  induction pre generalizing v with
  | nil =>
    rw [walk_nil] at hw
    injection hw with hw
    subst hw
    cases suf with
    | nil => exact absurd rfl hsuf
    | cons k' r => simp [delCore, hk, hp]
  | cons k0 pre' ih =>
    obtain ⟨h1, h2, h3⟩ := walk_cons_some hw
    rw [List.cons_append, delCore_step h1 h2 (by simp), ih h3]
    obtain ⟨fs, rfl⟩ := obj_of_jsHas h1
    rw [jsSet_get_self fs k0 h1]

/-! ## Entry validation and wrapper reduction -/

theorem expectArgs_none_iff (f : String) (t : JVal) (keys : List JVal) :
    expectArgs f t keys = none ↔
      isPrimJ t = false ∧ keys ≠ [] ∧ ∀ k ∈ keys, validKey k = true := by
  unfold expectArgs
  by_cases h1 : isPrimJ t = true
  · simp [h1]
  · have h1' : isPrimJ t = false := by simpa using h1
    by_cases h2 : keys.length = 0
    · simp [h1', h2, List.length_eq_zero.mp h2]
    · have h2' : keys ≠ [] := by
        intro hcon
        exact h2 (by simp [hcon])
      cases hf : keys.find? (fun k => !(validKey k)) with
      | some k =>
        have hmem := List.mem_of_find?_eq_some hf
        have hkey := List.find?_some hf
        simp only [Bool.not_eq_true'] at hkey
        simp [h1', h2, hf, h2']
        exact ⟨k, hmem, by simp [hkey]⟩
      | none =>
        have hall := List.find?_eq_none.mp hf
        simp [h1', h2, hf, h2']
        intro k hk
        have := hall k hk
        simpa using this

theorem expectArgs_none_of_valid {f : String} {t : JVal} {keys : List JVal}
    (h1 : isPrimJ t = false) (h2 : keys ≠ []) (h3 : ∀ k ∈ keys, validKey k = true) :
    expectArgs f t keys = none :=
  (expectArgs_none_iff f t keys).mpr ⟨h1, h2, h3⟩

theorem reachR_of_valid {t : JVal} {keys : List JVal}
    (h1 : isPrimJ t = false) (h2 : keys ≠ []) (h3 : ∀ k ∈ keys, validKey k = true) :
    reachR t keys = .ok (reachCore t (toKeys keys) 0) := by
  unfold reachR
  rw [expectArgs_none_of_valid h1 h2 h3]

theorem getR_of_valid {t : JVal} {keys : List JVal}
    (h1 : isPrimJ t = false) (h2 : keys ≠ []) (h3 : ∀ k ∈ keys, validKey k = true) :
    getR t keys = .ok (getCore t (toKeys keys)) := by
  unfold getR
  rw [expectArgs_none_of_valid h1 h2 h3]

theorem hasR_of_valid {t : JVal} {keys : List JVal}
    (h1 : isPrimJ t = false) (h2 : keys ≠ []) (h3 : ∀ k ∈ keys, validKey k = true) :
    hasR t keys = .ok (hasCore t (toKeys keys)) := by
  unfold hasR
  rw [expectArgs_none_of_valid h1 h2 h3]

theorem setR_of_valid {t : JVal} {keys : List JVal} {x : JVal}
    (h1 : isPrimJ t = false) (h2 : keys ≠ []) (h3 : ∀ k ∈ keys, validKey k = true) :
    setR t keys x = (.ok (setCore t (toKeys keys) x).1, (setCore t (toKeys keys) x).2) := by
  unfold setR
  rw [expectArgs_none_of_valid h1 h2 h3]

theorem delR_of_valid {t : JVal} {keys : List JVal}
    (h1 : isPrimJ t = false) (h2 : keys ≠ []) (h3 : ∀ k ∈ keys, validKey k = true) :
    delR t keys = (.ok (delCore t (toKeys keys)).1, (delCore t (toKeys keys)).2) := by
  unfold delR
  rw [expectArgs_none_of_valid h1 h2 h3]

theorem defineR_of_valid {t : JVal} {keys : List JVal} {d : JVal}
    (h1 : isPrimJ t = false) (h2 : keys ≠ []) (h3 : ∀ k ∈ keys, validKey k = true) :
    defineR t keys d =
      (.ok (defineCore t (toKeys keys) d).1, (defineCore t (toKeys keys) d).2) := by
  unfold defineR
  rw [expectArgs_none_of_valid h1 h2 h3]

theorem expectArgs_some_of_bad {f : String} {t : JVal} {keys : List JVal}
    (h : isPrimJ t = true ∨ keys = [] ∨ ∃ k ∈ keys, validKey k = false) :
    ∃ e, expectArgs f t keys = some e := by
  cases hm : expectArgs f t keys with
  | some e => exact ⟨e, rfl⟩
  | none =>
    obtain ⟨h1, h2, h3⟩ := (expectArgs_none_iff f t keys).mp hm
    rcases h with h | h | h
    · rw [h1] at h
      exact absurd h (by simp)
    · exact absurd h h2
    · obtain ⟨k, hk, hbad⟩ := h
      rw [h3 k hk] at hbad
      exact absurd hbad (by simp)

theorem toKeys_ne_nil {keys : List JVal} (h2 : keys ≠ [])
    (h3 : ∀ k ∈ keys, validKey k = true) : toKeys keys ≠ [] := by
  cases keys with
  | nil => exact absurd rfl h2
  | cons k r =>
    have hv := h3 k (by simp)
    rw [validKey, Option.isSome_iff_exists] at hv
    obtain ⟨pk, hpk⟩ := hv
    simp [toKeys, List.filterMap_cons, hpk]

/-! ## The claims about the path walkers -/

/-- **C6**: for every composite target and non-empty valid path, `reach`
returns `{value, index, reached}` where (1) if every key resolves, `reached`
is true, `index` is the last position (path length minus one) and `value` is
the terminal property's value; (2) if key `i` is the first key missing from
the container being walked, `reached` is false, `index = i - 1` (so `-1`
when the first key is missing) and `value` is the furthest container
reached; (3) if key `i` (not the last) resolves but to an atomic value,
`reached` is false, `index = i` and `value` is that atomic value.  Positions
are expressed by splitting the coerced path as `pre ++ k :: suf`, so that
`i = pre.length`. -/
theorem claim_C6_reach_trichotomy (t : JVal) (fs : List (PKey × JVal)) (keys : List JVal)
    (ht : t = .obj fs) (h2 : keys ≠ []) (h3 : ∀ k ∈ keys, validKey k = true) :
    (∀ pre k w, toKeys keys = pre ++ [k] → walk t pre = some w → jsHas w k = true →
       reachR t keys = .ok ⟨jsGet w k, (pre.length : Int), true⟩) ∧
    (∀ pre k suf w, toKeys keys = pre ++ k :: suf → walk t pre = some w →
       jsHas w k = false →
       reachR t keys = .ok ⟨w, (pre.length : Int) - 1, false⟩) ∧
    (∀ pre k suf w, toKeys keys = pre ++ k :: suf → suf ≠ [] → walk t pre = some w →
       jsHas w k = true → isPrimJ (jsGet w k) = true →
       reachR t keys = .ok ⟨jsGet w k, (pre.length : Int), false⟩) := by
  have hprim : isPrimJ t = false := by rw [ht]; rfl
  refine ⟨?_, ?_, ?_⟩
  · intro pre k w hks hw hk
    rw [reachR_of_valid hprim h2 h3, hks, reachCore_resolved hw hk]
    norm_num
  · intro pre k suf w hks hw hk
    rw [reachR_of_valid hprim h2 h3, hks, reachCore_stops_missing suf hw hk]
    norm_num
  · intro pre k suf w hks hsuf hw hk hp
    rw [reachR_of_valid hprim h2 h3, hks, reachCore_stops_atomic hw hk hp hsuf]
    norm_num

/-- Closed instance of C6 on `{a: {b: {c: 'v'}}}`: `reach(obj, ['a','b','c'])`
yields `{value: 'v', index: 2, reached: true}` and `reach(obj, ['a','b','x'])`
yields `{value: {c: 'v'}, index: 1, reached: false}`. -/
theorem claim_C6_reach_trichotomy_witness :
    reachR exObj [rawA, rawB, rawC] = .ok ⟨.prim (.str "v"), 2, true⟩ ∧
    reachR exObj [rawA, rawB, rawX] = .ok ⟨.obj [(kC, .prim (.str "v"))], 1, false⟩ := by
  constructor
  · have := (claim_C6_reach_trichotomy exObj
        [(kA, .obj [(kB, .obj [(kC, .prim (.str "v"))])])] [rawA, rawB, rawC]
        rfl (by decide) (by decide)).1 [kA, kB] kC (.obj [(kC, .prim (.str "v"))])
        (by decide) (by decide) (by decide)
    simpa using this
  · have := (claim_C6_reach_trichotomy exObj
        [(kA, .obj [(kB, .obj [(kC, .prim (.str "v"))])])] [rawA, rawB, rawX]
        rfl (by decide) (by decide)).2.1 [kA, kB] kX [] (.obj [(kC, .prim (.str "v"))])
        (by decide) (by decide) (by decide)
    simpa using this

/-- **C7**: `set` walks the intermediate steps, auto-creating `{}` at missing
intermediate keys, and returns `false` (without throwing) exactly when an
intermediate value exists but is atomic; when no intermediate is atomic it
assigns the value at the terminal key and returns `true` (so reading the
path back yields the assigned value). -/
theorem claim_C7_set_atomic_intermediate (t : JVal) (fs : List (PKey × JVal))
    (keys : List JVal) (x : JVal)
    (ht : t = .obj fs) (h2 : keys ≠ []) (h3 : ∀ k ∈ keys, validKey k = true) :
    (∀ pre k suf w, toKeys keys = pre ++ k :: suf → suf ≠ [] → walk t pre = some w →
        jsHas w k = true → isPrimJ (jsGet w k) = true → (setR t keys x).1 = .ok false) ∧
    ((∀ pre k suf w, toKeys keys = pre ++ k :: suf → suf ≠ [] → walk t pre = some w →
        jsHas w k = true → isPrimJ (jsGet w k) = true → False) →
      (setR t keys x).1 = .ok true ∧ getR (setR t keys x).2 keys = .ok x) := by
  subst ht
  have hprim : isPrimJ (JVal.obj fs) = false := rfl
  constructor
  · intro pre k suf w hks hsuf hw hk hp
    rw [setR_of_valid hprim h2 h3]
    simp only [hks]
    rw [setCore_blocked hw hk hp hsuf]
  · intro hnb
    have hb : (setCore (JVal.obj fs) (toKeys keys) x).1 = true := by
      by_cases hb : (setCore (JVal.obj fs) (toKeys keys) x).1 = true
      · exact hb
      · exfalso
        have hb' : (setCore (JVal.obj fs) (toKeys keys) x).1 = false := by simpa using hb
        obtain ⟨pre, k, suf, w, hks, hsuf, hwalk, hhk, hhp⟩ :=
          setCore_false_decomp (toKeys keys) fs x hb' (toKeys_ne_nil h2 h3)
        exact hnb pre k suf w hks hsuf hwalk hhk hhp
    constructor
    · rw [setR_of_valid hprim h2 h3, hb]
    · rw [setR_of_valid hprim h2 h3]
      have hobj : isPrimJ (setCore (JVal.obj fs) (toKeys keys) x).2 = false := by
        obtain ⟨gs, hgs⟩ := setCore_snd_obj fs (toKeys keys) x
        rw [hgs]
        rfl
      rw [getR_of_valid hobj h2 h3]
      have := (setCore_roundtrip (toKeys keys) (JVal.obj fs) x hprim hb
        (toKeys_ne_nil h2 h3)).1
      rw [this]

/-- Closed instance of C7: `set({a: 'str'}, ['a','b'], 1) === false` (the
intermediate value `'str'` is atomic). -/
theorem claim_C7_set_atomic_intermediate_witness :
    (setR (.obj [(kA, .prim (.str "str"))]) [rawA, rawB] (.prim (.num 1))).1 = .ok false := by
  have := (claim_C7_set_atomic_intermediate (.obj [(kA, .prim (.str "str"))])
      [(kA, .prim (.str "str"))] [rawA, rawB] (.prim (.num 1))
      rfl (by decide) (by decide)).1 [] kA [kB] (.obj [(kA, .prim (.str "str"))])
      (by decide) (by decide) (by decide) (by decide) (by decide)
  exact this

/-- **C8**: every path operation (`get`, `set`, `has`, `reach`,
`deleteProperty`, `defineProperty`) raises the type-error classification —
before any traversal step or mutation of the target — whenever the target is
not composite or the path is empty or contains a key that is not a string,
number or symbol; in the mutating operations the target is returned
untouched. -/
theorem claim_C8_invalid_args_fast_fail (t : JVal) (keys : List JVal) (x d : JVal)
    (h : isPrimJ t = true ∨ keys = [] ∨ ∃ k ∈ keys, validKey k = false) :
    (∃ e, getR t keys = .error e) ∧ (∃ e, hasR t keys = .error e) ∧
    (∃ e, reachR t keys = .error e) ∧
    (∃ e, (setR t keys x).1 = .error e) ∧ (setR t keys x).2 = t ∧
    (∃ e, (delR t keys).1 = .error e) ∧ (delR t keys).2 = t ∧
    (∃ e, (defineR t keys d).1 = .error e) ∧ (defineR t keys d).2 = t := by
  obtain ⟨e1, he1⟩ := @expectArgs_some_of_bad "get" t keys h
  obtain ⟨e2, he2⟩ := @expectArgs_some_of_bad "has" t keys h
  obtain ⟨e3, he3⟩ := @expectArgs_some_of_bad "reach" t keys h
  obtain ⟨e4, he4⟩ := @expectArgs_some_of_bad "set" t keys h
  obtain ⟨e5, he5⟩ := @expectArgs_some_of_bad "deleteProperty" t keys h
  obtain ⟨e6, he6⟩ := @expectArgs_some_of_bad "defineProperty" t keys h
  refine ⟨⟨e1, ?_⟩, ⟨e2, ?_⟩, ⟨e3, ?_⟩, ⟨e4, ?_⟩, ?_, ⟨e5, ?_⟩, ?_, ⟨e6, ?_⟩, ?_⟩ <;>
    simp [getR, hasR, reachR, setR, delR, defineR, he1, he2, he3, he4, he5, he6]

/-- Closed instance of C8: `get(null, ['k'])` and `get({}, [])` both raise
the invalid-argument error. -/
theorem claim_C8_invalid_args_fast_fail_witness :
    (∃ e, getR (.prim .null) [.prim (.str "k")] = .error e) ∧
    (∃ e, getR (.obj []) [] = .error e) := by
  constructor
  · exact (claim_C8_invalid_args_fast_fail (.prim .null) [.prim (.str "k")]
      (.prim .undefined) (.prim .undefined) (Or.inl rfl)).1
  · exact (claim_C8_invalid_args_fast_fail (.obj []) []
      (.prim .undefined) (.prim .undefined) (Or.inr (Or.inl rfl))).1

/-- **C9**: path `get`/`set`/`has` round-trip: for every non-empty path of
valid keys and every value, starting from a fresh empty plain object, `set`
succeeds and afterwards `get` returns the value and `has` returns true. -/
theorem claim_C9_set_get_has_roundtrip (keys : List JVal) (x : JVal)
    (h2 : keys ≠ []) (h3 : ∀ k ∈ keys, validKey k = true) :
    (setR (.obj []) keys x).1 = .ok true ∧
    getR (setR (.obj []) keys x).2 keys = .ok x ∧
    hasR (setR (.obj []) keys x).2 keys = .ok true := by
  have hprim : isPrimJ (JVal.obj []) = false := rfl
  have hb : (setCore (JVal.obj []) (toKeys keys) x).1 = true :=
    setCore_fresh (toKeys keys) x (toKeys_ne_nil h2 h3)
  have hobj : isPrimJ (setCore (JVal.obj []) (toKeys keys) x).2 = false := by
    obtain ⟨gs, hgs⟩ := setCore_snd_obj [] (toKeys keys) x
    rw [hgs]
    rfl
  have hrt := setCore_roundtrip (toKeys keys) (JVal.obj []) x hprim hb (toKeys_ne_nil h2 h3)
  refine ⟨?_, ?_, ?_⟩
  · rw [setR_of_valid hprim h2 h3, hb]
  · rw [setR_of_valid hprim h2 h3, getR_of_valid hobj h2 h3, hrt.1]
  · rw [setR_of_valid hprim h2 h3, hasR_of_valid hobj h2 h3, hrt.2]

/-- Closed instance of C9: `set({}, ['a','b','c'], 'x')` then reading
`['a','b','c']` back yields `'x'` and `has` yields `true`. -/
theorem claim_C9_set_get_has_roundtrip_witness :
    (setR (.obj []) [rawA, rawB, rawC] (.prim (.str "x"))).1 = .ok true ∧
    getR (setR (.obj []) [rawA, rawB, rawC] (.prim (.str "x"))).2 [rawA, rawB, rawC] =
      .ok (.prim (.str "x")) ∧
    hasR (setR (.obj []) [rawA, rawB, rawC] (.prim (.str "x"))).2 [rawA, rawB, rawC] =
      .ok true :=
  claim_C9_set_get_has_roundtrip [rawA, rawB, rawC] (.prim (.str "x"))
    (by decide) (by decide)

/-- **C10** (implicit): `deleteProperty` returns `true` and leaves the target
completely unchanged whenever some intermediate path key (any key before the
last) is missing from the container being walked — a vacuous success — while
an intermediate that resolves to an atomic value makes it return `false`
(also leaving the target unchanged). -/
theorem claim_C10_delete_vacuous_success (t : JVal) (fs : List (PKey × JVal))
    (keys : List JVal)
    (ht : t = .obj fs) (h2 : keys ≠ []) (h3 : ∀ k ∈ keys, validKey k = true) :
    (∀ pre k suf w, toKeys keys = pre ++ k :: suf → suf ≠ [] → walk t pre = some w →
        jsHas w k = false → delR t keys = (.ok true, t)) ∧
    (∀ pre k suf w, toKeys keys = pre ++ k :: suf → suf ≠ [] → walk t pre = some w →
        jsHas w k = true → isPrimJ (jsGet w k) = true → delR t keys = (.ok false, t)) := by
  have hprim : isPrimJ t = false := by rw [ht]; rfl
  constructor
  · intro pre k suf w hks hsuf hw hk
    rw [delR_of_valid hprim h2 h3]
    simp only [hks]
    rw [delCore_vacuous hw hk hsuf]
  · intro pre k suf w hks hsuf hw hk hp
    rw [delR_of_valid hprim h2 h3]
    simp only [hks]
    rw [delCore_atomic hw hk hp hsuf]

/-- Closed instance of C10: deleting `['x','b']` from `{a: {}}` (intermediate
`'x'` missing) returns `true` and leaves the object untouched; deleting
`['a','b']` from `{a: 5}` (intermediate atomic) returns `false`. -/
theorem claim_C10_delete_vacuous_success_witness :
    delR (.obj [(kA, .obj [])]) [rawX, rawB] = (.ok true, .obj [(kA, .obj [])]) ∧
    delR (.obj [(kA, .prim (.num 5))]) [rawA, rawB] =
      (.ok false, .obj [(kA, .prim (.num 5))]) := by
  constructor
  · exact (claim_C10_delete_vacuous_success (.obj [(kA, .obj [])]) [(kA, .obj [])]
      [rawX, rawB] rfl (by decide) (by decide)).1 [] kX [kB] (.obj [(kA, .obj [])])
      (by decide) (by decide) (by decide) (by decide)
  · exact (claim_C10_delete_vacuous_success (.obj [(kA, .prim (.num 5))])
      [(kA, .prim (.num 5))] [rawA, rawB] rfl (by decide) (by decide)).2 [] kA [kB]
      (.obj [(kA, .prim (.num 5))]) (by decide) (by decide) (by decide) (by decide)
      (by decide)

/-! ## Basic heap-manipulation lemmas -/

theorem aget_mem {κ α : Type} [DecidableEq κ] {l : List (κ × α)} {k : κ} {a : α}
    (h : aget l k = some a) : (k, a) ∈ l := by
  induction l with
  | nil => simp [aget] at h
  | cons p r ih =>
    obtain ⟨kk, aa⟩ := p
    rw [aget_cons] at h
    by_cases hk : k = kk
    · subst hk
      simp at h
      simp [h]
    · rw [if_neg hk] at h
      exact List.mem_cons_of_mem _ (ih h)

theorem Heap.find_alloc_lt {h : Heap} {a : Nat} (nd : Node) (ha : a < h.next) :
    (h.alloc nd).find a = h.find a := by
  show aget ((h.next, nd) :: h.nodes) a = aget h.nodes a
  rw [aget_cons, if_neg (Nat.ne_of_lt ha)]

theorem Heap.find_alloc_self (h : Heap) (nd : Node) :
    (h.alloc nd).find h.next = some nd := by
  show aget ((h.next, nd) :: h.nodes) h.next = some nd
  rw [aget_cons, if_pos rfl]

theorem Heap.find_store_ne {h : Heap} {a r : Nat} (nd : Node) (ha : a ≠ r) :
    (h.store r nd).find a = h.find a := by
  show aget ((r, nd) :: h.nodes) a = aget h.nodes a
  rw [aget_cons, if_neg ha]

theorem Heap.find_store_self (h : Heap) (r : Nat) (nd : Node) :
    (h.store r nd).find r = some nd := by
  show aget ((r, nd) :: h.nodes) r = some nd
  rw [aget_cons, if_pos rfl]

theorem Heap.next_alloc (h : Heap) (nd : Node) : (h.alloc nd).next = h.next + 1 := rfl

theorem Heap.next_store (h : Heap) (r : Nat) (nd : Node) : (h.store r nd).next = h.next := rfl

theorem heapExt_refl (h : Heap) : HeapExt h h := ⟨le_refl _, fun _ _ => rfl⟩

theorem heapExt_alloc (h : Heap) (nd : Node) : HeapExt h (h.alloc nd) :=
  ⟨Nat.le_succ _, fun _ ha => Heap.find_alloc_lt nd ha⟩

theorem heapExt_trans {h1 h2 h3 : Heap} (e1 : HeapExt h1 h2) (e2 : HeapExt h2 h3) :
    HeapExt h1 h3 :=
  ⟨le_trans e1.1 e2.1, fun a ha => by
    rw [e2.2 a (lt_of_lt_of_le ha e1.1), e1.2 a ha]⟩

theorem heapExtAt_of_ext {r : Nat} {h h' : Heap} (e : HeapExt h h') : HeapExtAt r h h' :=
  ⟨e.1, fun a ha _ => e.2 a ha⟩

theorem heapExtAt_store {r : Nat} (h : Heap) (nd : Node) : HeapExtAt r h (h.store r nd) :=
  ⟨le_refl _, fun _ _ ha => Heap.find_store_ne nd ha⟩

theorem heapExtAt_trans {r : Nat} {h1 h2 h3 : Heap}
    (e1 : HeapExtAt r h1 h2) (e2 : HeapExtAt r h2 h3) : HeapExtAt r h1 h3 :=
  ⟨le_trans e1.1 e2.1, fun a ha hr => by
    rw [e2.2 a (lt_of_lt_of_le ha e1.1) hr, e1.2 a ha hr]⟩

theorem heapExt_of_extAt_alloc {h h2 : Heap} {nd : Node}
    (e : HeapExtAt h.next (h.alloc nd) h2) : HeapExt h h2 := by
  refine ⟨le_trans (Nat.le_succ _) e.1, fun a ha => ?_⟩
  rw [e.2 a (lt_of_lt_of_le ha (Nat.le_succ _)) (Nat.ne_of_lt ha),
    Heap.find_alloc_lt nd ha]

theorem cachePres_refl (c : Cache) : CachePres c c := fun _ _ hk => hk

theorem cachePres_trans {c1 c2 c3 : Cache} (p1 : CachePres c1 c2) (p2 : CachePres c2 c3) :
    CachePres c1 c3 := fun k r hk => p2 k r (p1 k r hk)

theorem cachePres_cons {c : Cache} {a : Nat} (r : Nat) (ha : aget c a = none) :
    CachePres c ((a, r) :: c) := by
  intro k rr hk
  rw [aget_cons]
  by_cases hka : k = a
  · subst hka
    rw [hk] at ha
    exact absurd ha (by simp)
  · rw [if_neg hka]
    exact hk

/-! ## The cloner only extends the heap and the cache -/

theorem popObjWith_ext {cl : Heap → Cache → Val → CRes}
    (hcl : ∀ h c v h' c' v', cl h c v = .ok h' c' v' → HeapExt h h' ∧ CachePres c c')
    (r : Nat) (l : List (PKey × Val)) :
    ∀ h c h' c', popObjWith cl r h c l = .ok h' c' → HeapExtAt r h h' ∧ CachePres c c' := by
  induction l with
  | nil =>
    intro h c h' c' heq
    injection heq with h1 h2
    subst h1
    subst h2
    exact ⟨⟨le_refl _, fun _ _ _ => rfl⟩, cachePres_refl _⟩
  | cons p rest ih =>
    obtain ⟨k, v⟩ := p
    intro h c h' c' heq
    cases hc : cl h c v with
    | ok h1 c1 v1 =>
      simp only [popObjWith, hc] at heq
      obtain ⟨e1, p1⟩ := hcl h c v h1 c1 v1 hc
      obtain ⟨e2, p2⟩ := ih _ _ _ _ heq
      exact ⟨heapExtAt_trans (heapExtAt_of_ext e1)
        (heapExtAt_trans (heapExtAt_store h1 _) e2), cachePres_trans p1 p2⟩
    | typeError =>
      simp only [popObjWith, hc] at heq
      exact absurd heq (by simp)
    | outOfFuel =>
      simp only [popObjWith, hc] at heq
      exact absurd heq (by simp)

theorem popArrWith_ext {cl : Heap → Cache → Val → CRes}
    (hcl : ∀ h c v h' c' v', cl h c v = .ok h' c' v' → HeapExt h h' ∧ CachePres c c')
    (r : Nat) (src : List (Nat × Val)) (l : List Nat) :
    ∀ h c h' c', popArrWith cl r src h c l = .ok h' c' → HeapExtAt r h h' ∧ CachePres c c' := by
  induction l with
  | nil =>
    intro h c h' c' heq
    injection heq with h1 h2
    subst h1
    subst h2
    exact ⟨⟨le_refl _, fun _ _ _ => rfl⟩, cachePres_refl _⟩
  | cons i rest ih =>
    intro h c h' c' heq
    cases hs : aget src i with
    | none =>
      simp only [popArrWith, hs] at heq
      exact ih _ _ _ _ heq
    | some v =>
      cases hc : cl h c v with
      | ok h1 c1 v1 =>
        simp only [popArrWith, hs, hc] at heq
        obtain ⟨e1, p1⟩ := hcl h c v h1 c1 v1 hc
        obtain ⟨e2, p2⟩ := ih _ _ _ _ heq
        exact ⟨heapExtAt_trans (heapExtAt_of_ext e1)
          (heapExtAt_trans (heapExtAt_store h1 _) e2), cachePres_trans p1 p2⟩
      | typeError =>
        simp only [popArrWith, hs, hc] at heq
        exact absurd heq (by simp)
      | outOfFuel =>
        simp only [popArrWith, hs, hc] at heq
        exact absurd heq (by simp)

theorem popMapWith_ext {cl : Heap → Cache → Val → CRes}
    (hcl : ∀ h c v h' c' v', cl h c v = .ok h' c' v' → HeapExt h h' ∧ CachePres c c')
    (r : Nat) (l : List (Val × Val)) :
    ∀ h c h' c', popMapWith cl r h c l = .ok h' c' → HeapExtAt r h h' ∧ CachePres c c' := by
  induction l with
  | nil =>
    intro h c h' c' heq
    injection heq with h1 h2
    subst h1
    subst h2
    exact ⟨⟨le_refl _, fun _ _ _ => rfl⟩, cachePres_refl _⟩
  | cons p rest ih =>
    obtain ⟨k, v⟩ := p
    intro h c h' c' heq
    cases hc : cl h c k with
    | ok h1 c1 k1 =>
      cases hc2 : cl h1 c1 v with
      | ok h2 c2 v1 =>
        simp only [popMapWith, hc, hc2] at heq
        obtain ⟨e1, p1⟩ := hcl h c k h1 c1 k1 hc
        obtain ⟨e2, p2⟩ := hcl h1 c1 v h2 c2 v1 hc2
        obtain ⟨e3, p3⟩ := ih _ _ _ _ heq
        exact ⟨heapExtAt_trans (heapExtAt_of_ext e1)
          (heapExtAt_trans (heapExtAt_of_ext e2)
            (heapExtAt_trans (heapExtAt_store h2 _) e3)),
          cachePres_trans p1 (cachePres_trans p2 p3)⟩
      | typeError =>
        simp only [popMapWith, hc, hc2] at heq
        exact absurd heq (by simp)
      | outOfFuel =>
        simp only [popMapWith, hc, hc2] at heq
        exact absurd heq (by simp)
    | typeError =>
      simp only [popMapWith, hc] at heq
      exact absurd heq (by simp)
    | outOfFuel =>
      simp only [popMapWith, hc] at heq
      exact absurd heq (by simp)

theorem popSetWith_ext {cl : Heap → Cache → Val → CRes}
    (hcl : ∀ h c v h' c' v', cl h c v = .ok h' c' v' → HeapExt h h' ∧ CachePres c c')
    (r : Nat) (l : List Val) :
    ∀ h c h' c', popSetWith cl r h c l = .ok h' c' → HeapExtAt r h h' ∧ CachePres c c' := by
  induction l with
  | nil =>
    intro h c h' c' heq
    injection heq with h1 h2
    subst h1
    subst h2
    exact ⟨⟨le_refl _, fun _ _ _ => rfl⟩, cachePres_refl _⟩
  | cons v rest ih =>
    intro h c h' c' heq
    cases hc : cl h c v with
    | ok h1 c1 v1 =>
      simp only [popSetWith, hc] at heq
      obtain ⟨e1, p1⟩ := hcl h c v h1 c1 v1 hc
      obtain ⟨e2, p2⟩ := ih _ _ _ _ heq
      exact ⟨heapExtAt_trans (heapExtAt_of_ext e1)
        (heapExtAt_trans (heapExtAt_store h1 _) e2), cachePres_trans p1 p2⟩
    | typeError =>
      simp only [popSetWith, hc] at heq
      exact absurd heq (by simp)
    | outOfFuel =>
      simp only [popSetWith, hc] at heq
      exact absurd heq (by simp)

theorem deepCloneStep_ext {cl : Heap → Cache → Val → CRes}
    (hcl : ∀ h c v h' c' v', cl h c v = .ok h' c' v' → HeapExt h h' ∧ CachePres c c') :
    ∀ h c v h' c' v', deepCloneStep cl h c v = .ok h' c' v' → HeapExt h h' ∧ CachePres c c' := by
  intro h c v h' c' v' heq
  cases v with
  | prim p =>
    simp only [deepCloneStep] at heq
    injection heq with e1 e2 e3
    subst e1
    subst e2
    exact ⟨heapExt_refl h, cachePres_refl c⟩
  | ref a =>
    cases hca : aget c a with
    | some r =>
      simp only [deepCloneStep, hca] at heq
      injection heq with e1 e2 e3
      subst e1
      subst e2
      exact ⟨heapExt_refl h, cachePres_refl c⟩
    | none =>
      cases hf : h.find a with
      | none =>
        simp only [deepCloneStep, hca, hf] at heq
        injection heq with e1 e2 e3
        subst e1
        subst e2
        exact ⟨heapExt_refl h, cachePres_refl c⟩
      | some nd =>
        cases nd with
        | obj fields =>
          cases hp : popObjWith cl h.next (h.alloc (.obj [])) ((a, h.next) :: c) fields with
          | ok h2 c2 =>
            simp only [deepCloneStep, hca, hf, hp] at heq
            injection heq with e1 e2 e3
            subst e1
            subst e2
            obtain ⟨e, p⟩ := popObjWith_ext hcl h.next fields _ _ _ _ hp
            exact ⟨heapExt_of_extAt_alloc e, cachePres_trans (cachePres_cons h.next hca) p⟩
          | typeError =>
            simp only [deepCloneStep, hca, hf, hp] at heq
            exact absurd heq (by simp)
          | outOfFuel =>
            simp only [deepCloneStep, hca, hf, hp] at heq
            exact absurd heq (by simp)
        | arr len elems =>
          cases hp : popArrWith cl h.next elems (h.alloc (.arr 0 []))
              ((a, h.next) :: c) (List.range len) with
          | ok h2 c2 =>
            simp only [deepCloneStep, hca, hf, hp] at heq
            injection heq with e1 e2 e3
            subst e1
            subst e2
            obtain ⟨e, p⟩ := popArrWith_ext hcl h.next elems (List.range len) _ _ _ _ hp
            exact ⟨heapExt_of_extAt_alloc e, cachePres_trans (cachePres_cons h.next hca) p⟩
          | typeError =>
            simp only [deepCloneStep, hca, hf, hp] at heq
            exact absurd heq (by simp)
          | outOfFuel =>
            simp only [deepCloneStep, hca, hf, hp] at heq
            exact absurd heq (by simp)
        | map entries =>
          cases hp : popMapWith cl h.next (h.alloc (.map [])) ((a, h.next) :: c) entries with
          | ok h2 c2 =>
            simp only [deepCloneStep, hca, hf, hp] at heq
            injection heq with e1 e2 e3
            subst e1
            subst e2
            obtain ⟨e, p⟩ := popMapWith_ext hcl h.next entries _ _ _ _ hp
            exact ⟨heapExt_of_extAt_alloc e, cachePres_trans (cachePres_cons h.next hca) p⟩
          | typeError =>
            simp only [deepCloneStep, hca, hf, hp] at heq
            exact absurd heq (by simp)
          | outOfFuel =>
            simp only [deepCloneStep, hca, hf, hp] at heq
            exact absurd heq (by simp)
        | set elems =>
          cases hp : popSetWith cl h.next (h.alloc (.set [])) ((a, h.next) :: c) elems with
          | ok h2 c2 =>
            simp only [deepCloneStep, hca, hf, hp] at heq
            injection heq with e1 e2 e3
            subst e1
            subst e2
            obtain ⟨e, p⟩ := popSetWith_ext hcl h.next elems _ _ _ _ hp
            exact ⟨heapExt_of_extAt_alloc e, cachePres_trans (cachePres_cons h.next hca) p⟩
          | typeError =>
            simp only [deepCloneStep, hca, hf, hp] at heq
            exact absurd heq (by simp)
          | outOfFuel =>
            simp only [deepCloneStep, hca, hf, hp] at heq
            exact absurd heq (by simp)
        | date t =>
          simp only [deepCloneStep, hca, hf] at heq
          injection heq with e1 e2 e3
          subst e1
          subst e2
          exact ⟨heapExt_alloc h _, cachePres_refl c⟩
        | regex s f =>
          simp only [deepCloneStep, hca, hf] at heq
          injection heq with e1 e2 e3
          subst e1
          subst e2
          exact ⟨heapExt_alloc h _, cachePres_refl c⟩
        | weakMap =>
          simp only [deepCloneStep, hca, hf] at heq
          injection heq with e1 e2 e3
          subst e1
          subst e2
          exact ⟨heapExt_refl h, cachePres_refl c⟩
        | weakSet =>
          simp only [deepCloneStep, hca, hf] at heq
          injection heq with e1 e2 e3
          subst e1
          subst e2
          exact ⟨heapExt_refl h, cachePres_refl c⟩
        | weakRef t =>
          cases hw : cl h c (t.getD (.prim .undefined)) with
          | ok h1 c1 v1 =>
            by_cases hwk : weakable v1 = true
            · simp only [deepCloneStep, hca, hf, hw, hwk, if_true] at heq
              injection heq with e1 e2 e3
              subst e1
              subst e2
              obtain ⟨e, p⟩ := hcl h c _ h1 c1 v1 hw
              exact ⟨heapExt_trans e (heapExt_alloc h1 _), p⟩
            · simp only [deepCloneStep, hca, hf, hw, hwk, if_false] at heq
              exact absurd heq (by simp)
          | typeError =>
            simp only [deepCloneStep, hca, hf, hw] at heq
            exact absurd heq (by simp)
          | outOfFuel =>
            simp only [deepCloneStep, hca, hf, hw] at heq
            exact absurd heq (by simp)
        | promise =>
          simp only [deepCloneStep, hca, hf] at heq
          injection heq with e1 e2 e3
          subst e1
          subst e2
          exact ⟨heapExt_refl h, cachePres_refl c⟩
        | sharedArrayBuf bs =>
          simp only [deepCloneStep, hca, hf] at heq
          injection heq with e1 e2 e3
          subst e1
          subst e2
          exact ⟨heapExt_refl h, cachePres_refl c⟩
        | typedArr bs =>
          simp only [deepCloneStep, hca, hf] at heq
          injection heq with e1 e2 e3
          subst e1
          subst e2
          exact ⟨heapExt_alloc h _, cachePres_refl c⟩
        | dataView bs =>
          simp only [deepCloneStep, hca, hf] at heq
          injection heq with e1 e2 e3
          subst e1
          subst e2
          exact ⟨heapExt_alloc h _, cachePres_refl c⟩
        | arrayBuf bs =>
          simp only [deepCloneStep, hca, hf] at heq
          injection heq with e1 e2 e3
          subst e1
          subst e2
          exact ⟨heapExt_alloc h _, cachePres_refl c⟩
        | nodeBuffer bs =>
          simp only [deepCloneStep, hca, hf] at heq
          injection heq with e1 e2 e3
          subst e1
          subst e2
          exact ⟨heapExt_alloc h _, cachePres_refl c⟩
        | boxed p =>
          simp only [deepCloneStep, hca, hf] at heq
          injection heq with e1 e2 e3
          subst e1
          subst e2
          exact ⟨heapExt_alloc h _, cachePres_refl c⟩

theorem deepCloneF_ext :
    ∀ fuel h c v h' c' v', deepCloneF fuel h c v = .ok h' c' v' →
      HeapExt h h' ∧ CachePres c c' := by
  intro fuel
  induction fuel with
  | zero =>
    intro h c v h' c' v' heq
    exact absurd heq (by simp [deepCloneF])
  | succ fuel ih => exact deepCloneStep_ext ih

/-! ## Cache-hit and registration lemmas -/

theorem deepCloneF_cache_hit {fuel : Nat} {h : Heap} {c : Cache} {a r : Nat}
    (hc : aget c a = some r) :
    deepCloneF (fuel + 1) h c (.ref a) = .ok h c (.ref r) := by
  show deepCloneStep (deepCloneF fuel) h c (.ref a) = _
  simp only [deepCloneStep, hc]

/-! ## Termination: counting and well-formedness lemmas -/

theorem unhit_nil (N : Nat) : unhit N [] = N := by
  unfold unhit
  have hall : ∀ a ∈ Finset.range N, aget ([] : Cache) a = none := fun a _ => rfl
  rw [Finset.filter_true_of_mem hall, Finset.card_range]

theorem unhit_insert {N a : Nat} (r : Nat) {c : Cache} (haN : a < N)
    (hca : aget c a = none) :
    unhit N ((a, r) :: c) + 1 = unhit N c := by
  unfold unhit
  have hset : (Finset.range N).filter (fun x => aget ((a, r) :: c) x = none) =
      ((Finset.range N).filter (fun x => aget c x = none)).erase a := by
    ext x
    simp only [Finset.mem_filter, Finset.mem_erase, Finset.mem_range, aget_cons]
    constructor
    · rintro ⟨hx, hcond⟩
      by_cases hxa : x = a
      · rw [if_pos hxa] at hcond
        exact absurd hcond (by simp)
      · rw [if_neg hxa] at hcond
        exact ⟨hxa, hx, hcond⟩
    · rintro ⟨hxa, hx, hcond⟩
      exact ⟨hx, by rw [if_neg hxa]; exact hcond⟩
  rw [hset, Finset.card_erase_of_mem (by simp [Finset.mem_filter, haN, hca])]
  have hpos : 0 < ((Finset.range N).filter (fun x => aget c x = none)).card :=
    Finset.card_pos.mpr ⟨a, by simp [Finset.mem_filter, haN, hca]⟩
  omega

theorem unhit_mono {N : Nat} {c c' : Cache} (p : CachePres c c') :
    unhit N c' ≤ unhit N c := by
  apply Finset.card_le_card
  intro x hx
  simp only [Finset.mem_filter] at hx ⊢
  refine ⟨hx.1, ?_⟩
  cases hcx : aget c x with
  | none => rfl
  | some r =>
    have h2 := p x r hcx
    rw [hx.2] at h2
    exact absurd h2 (by simp)

theorem heapOk_of_ext {h h' : Heap} {N : Nat} (hok : HeapOkBelow h N)
    (hN : N ≤ h.next) (e : HeapExt h h') : HeapOkBelow h' N := by
  intro a nd ha hf
  exact hok a nd ha (by rwa [e.2 a (lt_of_lt_of_le ha hN)] at hf)

theorem heapOk_store_high {h : Heap} {N r : Nat} (hok : HeapOkBelow h N)
    (hr : N ≤ r) (nd : Node) : HeapOkBelow (h.store r nd) N := by
  intro a nd' ha hf
  exact hok a nd' ha (by rwa [Heap.find_store_ne nd (by omega)] at hf)

theorem rankV_le {v : Val} {N : Nat} (hv : v.refLt N = true) : rankV v ≤ N := by
  cases v with
  | prim p => simp [rankV]
  | ref a =>
    have : a < N := by simpa [Val.refLt] using hv
    simp only [rankV]
    omega

theorem refLt_lt {a N : Nat} (hv : Val.refLt (.ref a) N = true) : a < N := by
  simpa [Val.refLt] using hv

theorem wf_heapOk {h : Heap} (hw : wfHeapB h = true) : HeapOkBelow h h.next := by
  intro a nd ha hf
  have hm := aget_mem hf
  have := (List.all_eq_true.mp hw) (a, nd) hm
  simp only [Bool.and_eq_true, decide_eq_true_eq] at this
  exact ⟨this.1.2, this.2⟩

/-! ## Termination of the population loops -/

theorem popObjWith_term (fuel N : Nat)
    (IH : ∀ h c v, HeapOkBelow h N → CacheBelow c N → N ≤ h.next → v.refLt N = true →
      unhit N c * (N + 1) + rankV v + 1 ≤ fuel →
      deepCloneF fuel h c v ≠ .outOfFuel ∧
        ∀ h' c' v', deepCloneF fuel h c v = .ok h' c' v' → CacheBelow c' N) :
    ∀ (l : List (PKey × Val)) (h : Heap) (c : Cache) (r : Nat),
      HeapOkBelow h N → CacheBelow c N → N ≤ h.next → N ≤ r →
      (∀ p ∈ l, (p.2 : Val).refLt N = true) →
      (unhit N c + 1) * (N + 1) ≤ fuel →
      popObjWith (deepCloneF fuel) r h c l ≠ .outOfFuel ∧
        ∀ h' c', popObjWith (deepCloneF fuel) r h c l = .ok h' c' → CacheBelow c' N := by
  intro l
  induction l with
  | nil =>
    intro h c r _ hcb _ _ _ _
    refine ⟨by simp [popObjWith], fun h' c' heq => ?_⟩
    injection heq with e1 e2
    subst e2
    exact hcb
  | cons p rest ih =>
    obtain ⟨k, v⟩ := p
    intro h c r hok hcb hN hr hl hfuel
    have hvN : v.refLt N = true := hl (k, v) (by simp)
    have hchildfuel : unhit N c * (N + 1) + rankV v + 1 ≤ fuel := by
      have hrank : rankV v ≤ N := rankV_le hvN
      have hexp : (unhit N c + 1) * (N + 1) = unhit N c * (N + 1) + N + 1 := by ring
      omega
    obtain ⟨hno, hcb'⟩ := IH h c v hok hcb hN hvN hchildfuel
    cases hc : deepCloneF fuel h c v with
    | outOfFuel => exact absurd hc hno
    | typeError =>
      refine ⟨by simp [popObjWith, hc], fun h' c' heq => ?_⟩
      simp only [popObjWith, hc] at heq
      exact absurd heq (by simp)
    | ok h1 c1 v1 =>
      obtain ⟨e1, p1⟩ := deepCloneF_ext fuel h c v h1 c1 v1 hc
      have hok1 : HeapOkBelow
          (h1.store r (.obj (aset (match h1.find r with
            | some (.obj fs) => fs | _ => []) k v1))) N :=
        heapOk_store_high (heapOk_of_ext hok hN e1) hr _
      have hcb1 : CacheBelow c1 N := hcb' h1 c1 v1 hc
      have hN1 : N ≤ (h1.store r (.obj (aset (match h1.find r with
          | some (.obj fs) => fs | _ => []) k v1))).next := by
        rw [Heap.next_store]
        exact le_trans hN (le_trans e1.1 (le_refl _))
      have hfuel1 : (unhit N c1 + 1) * (N + 1) ≤ fuel := by
        have hm := @unhit_mono N c c1 p1
        exact le_trans (Nat.mul_le_mul_right _ (by omega)) hfuel
      have hrest := ih _ c1 r hok1 hcb1 hN1 hr (fun p hp => hl p (by simp [hp])) hfuel1
      refine ⟨?_, fun h' c' heq => ?_⟩
      · intro hcon
        rw [show popObjWith (deepCloneF fuel) r h c ((k, v) :: rest) =
            popObjWith (deepCloneF fuel) r
              (h1.store r (.obj (aset (match h1.find r with
                | some (.obj fs) => fs | _ => []) k v1))) c1 rest by
          simp only [popObjWith, hc]] at hcon
        exact hrest.1 hcon
      · rw [show popObjWith (deepCloneF fuel) r h c ((k, v) :: rest) =
            popObjWith (deepCloneF fuel) r
              (h1.store r (.obj (aset (match h1.find r with
                | some (.obj fs) => fs | _ => []) k v1))) c1 rest by
          simp only [popObjWith, hc]] at heq
        exact hrest.2 h' c' heq

theorem popArrWith_term (fuel N : Nat)
    (IH : ∀ h c v, HeapOkBelow h N → CacheBelow c N → N ≤ h.next → v.refLt N = true →
      unhit N c * (N + 1) + rankV v + 1 ≤ fuel →
      deepCloneF fuel h c v ≠ .outOfFuel ∧
        ∀ h' c' v', deepCloneF fuel h c v = .ok h' c' v' → CacheBelow c' N)
    (src : List (Nat × Val)) (hsrc : ∀ i v, aget src i = some v → Val.refLt v N = true) :
    ∀ (l : List Nat) (h : Heap) (c : Cache) (r : Nat),
      HeapOkBelow h N → CacheBelow c N → N ≤ h.next → N ≤ r →
      (unhit N c + 1) * (N + 1) ≤ fuel →
      popArrWith (deepCloneF fuel) r src h c l ≠ .outOfFuel ∧
        ∀ h' c', popArrWith (deepCloneF fuel) r src h c l = .ok h' c' → CacheBelow c' N := by
  intro l
  induction l with
  | nil =>
    intro h c r _ hcb _ _ _
    refine ⟨by simp [popArrWith], fun h' c' heq => ?_⟩
    injection heq with e1 e2
    subst e2
    exact hcb
  | cons i rest ih =>
    intro h c r hok hcb hN hr hfuel
    cases hs : aget src i with
    | none =>
      have hrest := ih h c r hok hcb hN hr hfuel
      refine ⟨?_, fun h' c' heq => ?_⟩
      · intro hcon
        rw [show popArrWith (deepCloneF fuel) r src h c (i :: rest) =
            popArrWith (deepCloneF fuel) r src h c rest by
          simp only [popArrWith, hs]] at hcon
        exact hrest.1 hcon
      · rw [show popArrWith (deepCloneF fuel) r src h c (i :: rest) =
            popArrWith (deepCloneF fuel) r src h c rest by
          simp only [popArrWith, hs]] at heq
        exact hrest.2 h' c' heq
    | some v =>
      have hvN : v.refLt N = true := hsrc i v hs
      have hchildfuel : unhit N c * (N + 1) + rankV v + 1 ≤ fuel := by
        have hrank : rankV v ≤ N := rankV_le hvN
        have hexp : (unhit N c + 1) * (N + 1) = unhit N c * (N + 1) + N + 1 := by ring
        omega
      obtain ⟨hno, hcb'⟩ := IH h c v hok hcb hN hvN hchildfuel
      cases hc : deepCloneF fuel h c v with
      | outOfFuel => exact absurd hc hno
      | typeError =>
        refine ⟨by simp [popArrWith, hs, hc], fun h' c' heq => ?_⟩
        simp only [popArrWith, hs, hc] at heq
        exact absurd heq (by simp)
      | ok h1 c1 v1 =>
        obtain ⟨e1, p1⟩ := deepCloneF_ext fuel h c v h1 c1 v1 hc
        have hok1 : HeapOkBelow (h1.store r (.arr
            (max (match h1.find r with | some (.arr len es) => (len, es) | _ => (0, [])).1
              (i + 1))
            (aset (match h1.find r with
              | some (.arr len es) => (len, es) | _ => (0, [])).2 i v1))) N :=
          heapOk_store_high (heapOk_of_ext hok hN e1) hr _
        have hcb1 : CacheBelow c1 N := hcb' h1 c1 v1 hc
        have hN1 : N ≤ (h1.store r (.arr
            (max (match h1.find r with | some (.arr len es) => (len, es) | _ => (0, [])).1
              (i + 1))
            (aset (match h1.find r with
              | some (.arr len es) => (len, es) | _ => (0, [])).2 i v1))).next := by
          rw [Heap.next_store]
          exact le_trans hN e1.1
        have hfuel1 : (unhit N c1 + 1) * (N + 1) ≤ fuel := by
          have hm := @unhit_mono N c c1 p1
          exact le_trans (Nat.mul_le_mul_right _ (by omega)) hfuel
        have hrest := ih _ c1 r hok1 hcb1 hN1 hr hfuel1
        refine ⟨?_, fun h' c' heq => ?_⟩
        · intro hcon
          rw [show popArrWith (deepCloneF fuel) r src h c (i :: rest) =
              popArrWith (deepCloneF fuel) r src
                (h1.store r (.arr
                  (max (match h1.find r with
                    | some (.arr len es) => (len, es) | _ => (0, [])).1 (i + 1))
                  (aset (match h1.find r with
                    | some (.arr len es) => (len, es) | _ => (0, [])).2 i v1))) c1 rest by
            simp only [popArrWith, hs, hc]] at hcon
          exact hrest.1 hcon
        · rw [show popArrWith (deepCloneF fuel) r src h c (i :: rest) =
              popArrWith (deepCloneF fuel) r src
                (h1.store r (.arr
                  (max (match h1.find r with
                    | some (.arr len es) => (len, es) | _ => (0, [])).1 (i + 1))
                  (aset (match h1.find r with
                    | some (.arr len es) => (len, es) | _ => (0, [])).2 i v1))) c1 rest by
            simp only [popArrWith, hs, hc]] at heq
          exact hrest.2 h' c' heq

theorem popMapWith_term (fuel N : Nat)
    (IH : ∀ h c v, HeapOkBelow h N → CacheBelow c N → N ≤ h.next → v.refLt N = true →
      unhit N c * (N + 1) + rankV v + 1 ≤ fuel →
      deepCloneF fuel h c v ≠ .outOfFuel ∧
        ∀ h' c' v', deepCloneF fuel h c v = .ok h' c' v' → CacheBelow c' N) :
    ∀ (l : List (Val × Val)) (h : Heap) (c : Cache) (r : Nat),
      HeapOkBelow h N → CacheBelow c N → N ≤ h.next → N ≤ r →
      (∀ p ∈ l, Val.refLt (p.1 : Val) N = true ∧ Val.refLt (p.2 : Val) N = true) →
      (unhit N c + 1) * (N + 1) ≤ fuel →
      popMapWith (deepCloneF fuel) r h c l ≠ .outOfFuel ∧
        ∀ h' c', popMapWith (deepCloneF fuel) r h c l = .ok h' c' → CacheBelow c' N := by
  intro l
  induction l with
  | nil =>
    intro h c r _ hcb _ _ _ _
    refine ⟨by simp [popMapWith], fun h' c' heq => ?_⟩
    injection heq with e1 e2
    subst e2
    exact hcb
  | cons p rest ih =>
    obtain ⟨k, v⟩ := p
    intro h c r hok hcb hN hr hl hfuel
    have hkN : Val.refLt k N = true := (hl (k, v) (by simp)).1
    have hvN : Val.refLt v N = true := (hl (k, v) (by simp)).2
    have hchildfuel : unhit N c * (N + 1) + rankV k + 1 ≤ fuel := by
      have hrank : rankV k ≤ N := rankV_le hkN
      have hexp : (unhit N c + 1) * (N + 1) = unhit N c * (N + 1) + N + 1 := by ring
      omega
    obtain ⟨hno, hcb'⟩ := IH h c k hok hcb hN hkN hchildfuel
    cases hc : deepCloneF fuel h c k with
    | outOfFuel => exact absurd hc hno
    | typeError =>
      refine ⟨by simp [popMapWith, hc], fun h' c' heq => ?_⟩
      simp only [popMapWith, hc] at heq
      exact absurd heq (by simp)
    | ok h1 c1 k1 =>
      obtain ⟨e1, p1⟩ := deepCloneF_ext fuel h c k h1 c1 k1 hc
      have hok1 : HeapOkBelow h1 N := heapOk_of_ext hok hN e1
      have hcb1 : CacheBelow c1 N := hcb' h1 c1 k1 hc
      have hN1 : N ≤ h1.next := le_trans hN e1.1
      have hchildfuel2 : unhit N c1 * (N + 1) + rankV v + 1 ≤ fuel := by
        have hrank : rankV v ≤ N := rankV_le hvN
        have hm := @unhit_mono N c c1 p1
        have hexp : (unhit N c + 1) * (N + 1) = unhit N c * (N + 1) + N + 1 := by ring
        have hmm : unhit N c1 * (N + 1) ≤ unhit N c * (N + 1) :=
          Nat.mul_le_mul_right _ hm
        omega
      obtain ⟨hno2, hcb2'⟩ := IH h1 c1 v hok1 hcb1 hN1 hvN hchildfuel2
      cases hc2 : deepCloneF fuel h1 c1 v with
      | outOfFuel => exact absurd hc2 hno2
      | typeError =>
        refine ⟨by simp [popMapWith, hc, hc2], fun h' c' heq => ?_⟩
        simp only [popMapWith, hc, hc2] at heq
        exact absurd heq (by simp)
      | ok h2 c2 v1 =>
        obtain ⟨e2, p2⟩ := deepCloneF_ext fuel h1 c1 v h2 c2 v1 hc2
        have hok2 : HeapOkBelow (h2.store r (.map (aset (match h2.find r with
            | some (.map es) => es | _ => []) k1 v1))) N :=
          heapOk_store_high (heapOk_of_ext hok1 hN1 e2) hr _
        have hcb2 : CacheBelow c2 N := hcb2' h2 c2 v1 hc2
        have hN2 : N ≤ (h2.store r (.map (aset (match h2.find r with
            | some (.map es) => es | _ => []) k1 v1))).next := by
          rw [Heap.next_store]
          exact le_trans hN1 e2.1
        have hfuel2 : (unhit N c2 + 1) * (N + 1) ≤ fuel := by
          have hm1 := @unhit_mono N c c1 p1
          have hm2 := @unhit_mono N c1 c2 p2
          exact le_trans (Nat.mul_le_mul_right _ (by omega)) hfuel
        have hrest := ih _ c2 r hok2 hcb2 hN2 hr (fun p hp => hl p (by simp [hp])) hfuel2
        refine ⟨?_, fun h' c' heq => ?_⟩
        · intro hcon
          rw [show popMapWith (deepCloneF fuel) r h c ((k, v) :: rest) =
              popMapWith (deepCloneF fuel) r
                (h2.store r (.map (aset (match h2.find r with
                  | some (.map es) => es | _ => []) k1 v1))) c2 rest by
            simp only [popMapWith, hc, hc2]] at hcon
          exact hrest.1 hcon
        · rw [show popMapWith (deepCloneF fuel) r h c ((k, v) :: rest) =
              popMapWith (deepCloneF fuel) r
                (h2.store r (.map (aset (match h2.find r with
                  | some (.map es) => es | _ => []) k1 v1))) c2 rest by
            simp only [popMapWith, hc, hc2]] at heq
          exact hrest.2 h' c' heq

theorem popSetWith_term (fuel N : Nat)
    (IH : ∀ h c v, HeapOkBelow h N → CacheBelow c N → N ≤ h.next → v.refLt N = true →
      unhit N c * (N + 1) + rankV v + 1 ≤ fuel →
      deepCloneF fuel h c v ≠ .outOfFuel ∧
        ∀ h' c' v', deepCloneF fuel h c v = .ok h' c' v' → CacheBelow c' N) :
    ∀ (l : List Val) (h : Heap) (c : Cache) (r : Nat),
      HeapOkBelow h N → CacheBelow c N → N ≤ h.next → N ≤ r →
      (∀ v ∈ l, Val.refLt v N = true) →
      (unhit N c + 1) * (N + 1) ≤ fuel →
      popSetWith (deepCloneF fuel) r h c l ≠ .outOfFuel ∧
        ∀ h' c', popSetWith (deepCloneF fuel) r h c l = .ok h' c' → CacheBelow c' N := by
  intro l
  induction l with
  | nil =>
    intro h c r _ hcb _ _ _ _
    refine ⟨by simp [popSetWith], fun h' c' heq => ?_⟩
    injection heq with e1 e2
    subst e2
    exact hcb
  | cons v rest ih =>
    intro h c r hok hcb hN hr hl hfuel
    have hvN : v.refLt N = true := hl v (by simp)
    have hchildfuel : unhit N c * (N + 1) + rankV v + 1 ≤ fuel := by
      have hrank : rankV v ≤ N := rankV_le hvN
      have hexp : (unhit N c + 1) * (N + 1) = unhit N c * (N + 1) + N + 1 := by ring
      omega
    obtain ⟨hno, hcb'⟩ := IH h c v hok hcb hN hvN hchildfuel
    cases hc : deepCloneF fuel h c v with
    | outOfFuel => exact absurd hc hno
    | typeError =>
      refine ⟨by simp [popSetWith, hc], fun h' c' heq => ?_⟩
      simp only [popSetWith, hc] at heq
      exact absurd heq (by simp)
    | ok h1 c1 v1 =>
      obtain ⟨e1, p1⟩ := deepCloneF_ext fuel h c v h1 c1 v1 hc
      have hok1 : HeapOkBelow (h1.store r (.set
          (if (match h1.find r with | some (.set es) => es | _ => []).contains v1 then
            (match h1.find r with | some (.set es) => es | _ => [])
          else (match h1.find r with | some (.set es) => es | _ => []) ++ [v1]))) N :=
        heapOk_store_high (heapOk_of_ext hok hN e1) hr _
      have hcb1 : CacheBelow c1 N := hcb' h1 c1 v1 hc
      have hN1 : N ≤ (h1.store r (.set
          (if (match h1.find r with | some (.set es) => es | _ => []).contains v1 then
            (match h1.find r with | some (.set es) => es | _ => [])
          else (match h1.find r with | some (.set es) => es | _ => []) ++ [v1]))).next := by
        rw [Heap.next_store]
        exact le_trans hN e1.1
      have hfuel1 : (unhit N c1 + 1) * (N + 1) ≤ fuel := by
        have hm := @unhit_mono N c c1 p1
        exact le_trans (Nat.mul_le_mul_right _ (by omega)) hfuel
      have hrest := ih _ c1 r hok1 hcb1 hN1 hr (fun w hw => hl w (by simp [hw])) hfuel1
      refine ⟨?_, fun h' c' heq => ?_⟩
      · intro hcon
        rw [show popSetWith (deepCloneF fuel) r h c (v :: rest) =
            popSetWith (deepCloneF fuel) r
              (h1.store r (.set
                (if (match h1.find r with | some (.set es) => es | _ => []).contains v1 then
                  (match h1.find r with | some (.set es) => es | _ => [])
                else (match h1.find r with
                  | some (.set es) => es | _ => []) ++ [v1]))) c1 rest by
          simp only [popSetWith, hc]] at hcon
        exact hrest.1 hcon
      · rw [show popSetWith (deepCloneF fuel) r h c (v :: rest) =
            popSetWith (deepCloneF fuel) r
              (h1.store r (.set
                (if (match h1.find r with | some (.set es) => es | _ => []).contains v1 then
                  (match h1.find r with | some (.set es) => es | _ => [])
                else (match h1.find r with
                  | some (.set es) => es | _ => []) ++ [v1]))) c1 rest by
          simp only [popSetWith, hc]] at heq
        exact hrest.2 h' c' heq

theorem deepCloneF_term : ∀ (fuel N : Nat) (h : Heap) (c : Cache) (v : Val),
    HeapOkBelow h N → CacheBelow c N → N ≤ h.next → v.refLt N = true →
    unhit N c * (N + 1) + rankV v + 1 ≤ fuel →
    deepCloneF fuel h c v ≠ .outOfFuel ∧
      ∀ h' c' v', deepCloneF fuel h c v = .ok h' c' v' → CacheBelow c' N := by
  intro fuel
  induction fuel with
  | zero =>
    intro N h c v _ _ _ _ hf
    omega
  | succ fuel ihf =>
    intro N h c v hok hcb hN hv hfuel
    show deepCloneStep (deepCloneF fuel) h c v ≠ .outOfFuel ∧
      ∀ h' c' v', deepCloneStep (deepCloneF fuel) h c v = .ok h' c' v' → CacheBelow c' N
    cases v with
    | prim p =>
      refine ⟨by simp [deepCloneStep], fun h' c' v' heq => ?_⟩
      simp only [deepCloneStep] at heq
      injection heq with e1 e2 e3
      subst e2
      exact hcb
    | ref a =>
      have haN : a < N := refLt_lt hv
      cases hca : aget c a with
      | some r =>
        refine ⟨by simp [deepCloneStep, hca], fun h' c' v' heq => ?_⟩
        simp only [deepCloneStep, hca] at heq
        injection heq with e1 e2 e3
        subst e2
        exact hcb
      | none =>
        cases hf : h.find a with
        | none =>
          refine ⟨by simp [deepCloneStep, hca, hf], fun h' c' v' heq => ?_⟩
          simp only [deepCloneStep, hca, hf] at heq
          injection heq with e1 e2 e3
          subst e2
          exact hcb
        | some nd =>
          have hnd := hok a nd haN hf
          have hok' : HeapOkBelow (h.alloc (.obj [])) N :=
            heapOk_of_ext hok hN (heapExt_alloc h _)
          have hcb' : CacheBelow ((a, h.next) :: c) N := by
            intro p hp
            cases hp with
            | head => exact haN
            | tail _ hmem => exact hcb p hmem
          have hfuel' : (unhit N ((a, h.next) :: c) + 1) * (N + 1) ≤ fuel := by
            have hins := unhit_insert h.next haN hca
            have : (unhit N ((a, h.next) :: c) + 1) * (N + 1) =
                unhit N c * (N + 1) := by rw [hins]
            rw [this]
            simp only [rankV] at hfuel
            omega
          cases nd with
          | obj fields =>
            have hl : ∀ p ∈ fields, Val.refLt p.2 N = true := by
              have h1 := hnd.1
              simp only [Node.refsLt, List.all_eq_true] at h1
              exact h1
            have hpop := popObjWith_term fuel N (ihf N) fields (h.alloc (.obj []))
              ((a, h.next) :: c) h.next
              (heapOk_of_ext hok hN (heapExt_alloc h _)) hcb' (le_trans hN (Nat.le_succ _))
              hN hl hfuel'
            cases hp : popObjWith (deepCloneF fuel) h.next (h.alloc (.obj []))
                ((a, h.next) :: c) fields with
            | ok h2 c2 =>
              refine ⟨by simp [deepCloneStep, hca, hf, hp], fun h' c' v' heq => ?_⟩
              simp only [deepCloneStep, hca, hf, hp] at heq
              injection heq with e1 e2 e3
              subst e2
              exact hpop.2 h2 c2 hp
            | typeError =>
              refine ⟨by simp [deepCloneStep, hca, hf, hp], fun h' c' v' heq => ?_⟩
              simp only [deepCloneStep, hca, hf, hp] at heq
              exact absurd heq (by simp)
            | outOfFuel => exact absurd hp hpop.1
          | arr len elems =>
            have hsrc : ∀ i v, aget elems i = some v → Val.refLt v N = true := by
              intro i v hiv
              have h1 := hnd.1
              simp only [Node.refsLt, List.all_eq_true] at h1
              exact h1 (i, v) (aget_mem hiv)
            have hpop := popArrWith_term fuel N (ihf N) elems hsrc (List.range len)
              (h.alloc (.arr 0 [])) ((a, h.next) :: c) h.next
              (heapOk_of_ext hok hN (heapExt_alloc h _)) hcb' (le_trans hN (Nat.le_succ _))
              hN hfuel'
            cases hp : popArrWith (deepCloneF fuel) h.next elems (h.alloc (.arr 0 []))
                ((a, h.next) :: c) (List.range len) with
            | ok h2 c2 =>
              refine ⟨by simp [deepCloneStep, hca, hf, hp], fun h' c' v' heq => ?_⟩
              simp only [deepCloneStep, hca, hf, hp] at heq
              injection heq with e1 e2 e3
              subst e2
              exact hpop.2 h2 c2 hp
            | typeError =>
              refine ⟨by simp [deepCloneStep, hca, hf, hp], fun h' c' v' heq => ?_⟩
              simp only [deepCloneStep, hca, hf, hp] at heq
              exact absurd heq (by simp)
            | outOfFuel => exact absurd hp hpop.1
          | map entries =>
            have hl : ∀ p ∈ entries, Val.refLt p.1 N = true ∧ Val.refLt p.2 N = true := by
              have h1 := hnd.1
              simp only [Node.refsLt, List.all_eq_true, Bool.and_eq_true] at h1
              exact h1
            have hpop := popMapWith_term fuel N (ihf N) entries (h.alloc (.map []))
              ((a, h.next) :: c) h.next
              (heapOk_of_ext hok hN (heapExt_alloc h _)) hcb' (le_trans hN (Nat.le_succ _))
              hN hl hfuel'
            cases hp : popMapWith (deepCloneF fuel) h.next (h.alloc (.map []))
                ((a, h.next) :: c) entries with
            | ok h2 c2 =>
              refine ⟨by simp [deepCloneStep, hca, hf, hp], fun h' c' v' heq => ?_⟩
              simp only [deepCloneStep, hca, hf, hp] at heq
              injection heq with e1 e2 e3
              subst e2
              exact hpop.2 h2 c2 hp
            | typeError =>
              refine ⟨by simp [deepCloneStep, hca, hf, hp], fun h' c' v' heq => ?_⟩
              simp only [deepCloneStep, hca, hf, hp] at heq
              exact absurd heq (by simp)
            | outOfFuel => exact absurd hp hpop.1
          | set elems =>
            have hl : ∀ v ∈ elems, Val.refLt v N = true := by
              have h1 := hnd.1
              simp only [Node.refsLt, List.all_eq_true] at h1
              exact h1
            have hpop := popSetWith_term fuel N (ihf N) elems (h.alloc (.set []))
              ((a, h.next) :: c) h.next
              (heapOk_of_ext hok hN (heapExt_alloc h _)) hcb' (le_trans hN (Nat.le_succ _))
              hN hl hfuel'
            cases hp : popSetWith (deepCloneF fuel) h.next (h.alloc (.set []))
                ((a, h.next) :: c) elems with
            | ok h2 c2 =>
              refine ⟨by simp [deepCloneStep, hca, hf, hp], fun h' c' v' heq => ?_⟩
              simp only [deepCloneStep, hca, hf, hp] at heq
              injection heq with e1 e2 e3
              subst e2
              exact hpop.2 h2 c2 hp
            | typeError =>
              refine ⟨by simp [deepCloneStep, hca, hf, hp], fun h' c' v' heq => ?_⟩
              simp only [deepCloneStep, hca, hf, hp] at heq
              exact absurd heq (by simp)
            | outOfFuel => exact absurd hp hpop.1
          | date t =>
            refine ⟨by simp [deepCloneStep, hca, hf], fun h' c' v' heq => ?_⟩
            simp only [deepCloneStep, hca, hf] at heq
            injection heq with e1 e2 e3
            subst e2
            exact hcb
          | regex s f =>
            refine ⟨by simp [deepCloneStep, hca, hf], fun h' c' v' heq => ?_⟩
            simp only [deepCloneStep, hca, hf] at heq
            injection heq with e1 e2 e3
            subst e2
            exact hcb
          | weakMap =>
            refine ⟨by simp [deepCloneStep, hca, hf], fun h' c' v' heq => ?_⟩
            simp only [deepCloneStep, hca, hf] at heq
            injection heq with e1 e2 e3
            subst e2
            exact hcb
          | weakSet =>
            refine ⟨by simp [deepCloneStep, hca, hf], fun h' c' v' heq => ?_⟩
            simp only [deepCloneStep, hca, hf] at heq
            injection heq with e1 e2 e3
            subst e2
            exact hcb
          | weakRef t =>
            have hchildLt : Val.refLt (t.getD (.prim .undefined)) N = true := by
              cases t with
              | none => rfl
              | some v0 => exact hnd.1
            have hrankchild : rankV (t.getD (.prim .undefined)) ≤ a := by
              cases t with
              | none => simp [rankV]
              | some v0 =>
                cases v0 with
                | prim p => simp [rankV]
                | ref b =>
                  have hdec : b < a := by
                    have h2 := hnd.2
                    simpa [wkDecB] using h2
                  simp only [Option.getD, rankV]
                  omega
            have hfuelc : unhit N c * (N + 1) + rankV (t.getD (.prim .undefined)) + 1 ≤ fuel := by
              simp only [rankV] at hfuel
              omega
            obtain ⟨hno, hcb2⟩ := ihf N h c (t.getD (.prim .undefined)) hok hcb hN hchildLt hfuelc
            cases hc : deepCloneF fuel h c (t.getD (.prim .undefined)) with
            | ok h1 c1 v1 =>
              by_cases hwk : weakable v1 = true
              · refine ⟨by simp [deepCloneStep, hca, hf, hc, hwk], fun h' c' v' heq => ?_⟩
                simp only [deepCloneStep, hca, hf, hc, hwk, if_true] at heq
                injection heq with e1 e2 e3
                subst e2
                exact hcb2 h1 c1 v1 hc
              · refine ⟨by simp [deepCloneStep, hca, hf, hc, hwk], fun h' c' v' heq => ?_⟩
                simp only [deepCloneStep, hca, hf, hc, hwk, if_false] at heq
                exact absurd heq (by simp)
            | typeError =>
              refine ⟨by simp [deepCloneStep, hca, hf, hc], fun h' c' v' heq => ?_⟩
              simp only [deepCloneStep, hca, hf, hc] at heq
              exact absurd heq (by simp)
            | outOfFuel => exact absurd hc hno
          | promise =>
            refine ⟨by simp [deepCloneStep, hca, hf], fun h' c' v' heq => ?_⟩
            simp only [deepCloneStep, hca, hf] at heq
            injection heq with e1 e2 e3
            subst e2
            exact hcb
          | sharedArrayBuf bs =>
            refine ⟨by simp [deepCloneStep, hca, hf], fun h' c' v' heq => ?_⟩
            simp only [deepCloneStep, hca, hf] at heq
            injection heq with e1 e2 e3
            subst e2
            exact hcb
          | typedArr bs =>
            refine ⟨by simp [deepCloneStep, hca, hf], fun h' c' v' heq => ?_⟩
            simp only [deepCloneStep, hca, hf] at heq
            injection heq with e1 e2 e3
            subst e2
            exact hcb
          | dataView bs =>
            refine ⟨by simp [deepCloneStep, hca, hf], fun h' c' v' heq => ?_⟩
            simp only [deepCloneStep, hca, hf] at heq
            injection heq with e1 e2 e3
            subst e2
            exact hcb
          | arrayBuf bs =>
            refine ⟨by simp [deepCloneStep, hca, hf], fun h' c' v' heq => ?_⟩
            simp only [deepCloneStep, hca, hf] at heq
            injection heq with e1 e2 e3
            subst e2
            exact hcb
          | nodeBuffer bs =>
            refine ⟨by simp [deepCloneStep, hca, hf], fun h' c' v' heq => ?_⟩
            simp only [deepCloneStep, hca, hf] at heq
            injection heq with e1 e2 e3
            subst e2
            exact hcb
          | boxed p =>
            refine ⟨by simp [deepCloneStep, hca, hf], fun h' c' v' heq => ?_⟩
            simp only [deepCloneStep, hca, hf] at heq
            injection heq with e1 e2 e3
            subst e2
            exact hcb

/-! ## Registration and sharing lemmas -/

theorem wf_dom {h : Heap} {a : Nat} {nd : Node} (hw : wfHeapB h = true)
    (hf : h.find a = some nd) : a < h.next := by
  have hm := aget_mem hf
  have := (List.all_eq_true.mp hw) (a, nd) hm
  simp only [Bool.and_eq_true, decide_eq_true_eq] at this
  exact this.1.1

theorem deepCloneF_registering {fuel : Nat} {h : Heap} {c : Cache} {a : Nat} {nd : Node}
    {h' : Heap} {c' : Cache} {v' : Val}
    (hca : aget c a = none) (hf : h.find a = some nd) (hreg : nd.registering = true)
    (heq : deepCloneF fuel h c (.ref a) = .ok h' c' v') :
    v' = .ref h.next ∧ aget c' a = some h.next := by
  cases fuel with
  | zero => exact absurd heq (by simp [deepCloneF])
  | succ fuel =>
    have hcons : aget ((a, h.next) :: c) a = some h.next := by
      rw [aget_cons, if_pos rfl]
    replace heq : deepCloneStep (deepCloneF fuel) h c (.ref a) = .ok h' c' v' := heq
    cases nd with
    | obj fields =>
      cases hp : popObjWith (deepCloneF fuel) h.next (h.alloc (.obj []))
          ((a, h.next) :: c) fields with
      | ok h2 c2 =>
        simp only [deepCloneStep, hca, hf, hp] at heq
        injection heq with e1 e2 e3
        subst e2
        subst e3
        obtain ⟨e, p⟩ := popObjWith_ext (deepCloneF_ext fuel) h.next fields _ _ _ _ hp
        exact ⟨rfl, p a h.next hcons⟩
      | typeError =>
        simp only [deepCloneStep, hca, hf, hp] at heq
        exact absurd heq (by simp)
      | outOfFuel =>
        simp only [deepCloneStep, hca, hf, hp] at heq
        exact absurd heq (by simp)
    | arr len elems =>
      cases hp : popArrWith (deepCloneF fuel) h.next elems (h.alloc (.arr 0 []))
          ((a, h.next) :: c) (List.range len) with
      | ok h2 c2 =>
        simp only [deepCloneStep, hca, hf, hp] at heq
        injection heq with e1 e2 e3
        subst e2
        subst e3
        obtain ⟨e, p⟩ := popArrWith_ext (deepCloneF_ext fuel) h.next elems
          (List.range len) _ _ _ _ hp
        exact ⟨rfl, p a h.next hcons⟩
      | typeError =>
        simp only [deepCloneStep, hca, hf, hp] at heq
        exact absurd heq (by simp)
      | outOfFuel =>
        simp only [deepCloneStep, hca, hf, hp] at heq
        exact absurd heq (by simp)
    | map entries =>
      cases hp : popMapWith (deepCloneF fuel) h.next (h.alloc (.map []))
          ((a, h.next) :: c) entries with
      | ok h2 c2 =>
        simp only [deepCloneStep, hca, hf, hp] at heq
        injection heq with e1 e2 e3
        subst e2
        subst e3
        obtain ⟨e, p⟩ := popMapWith_ext (deepCloneF_ext fuel) h.next entries _ _ _ _ hp
        exact ⟨rfl, p a h.next hcons⟩
      | typeError =>
        simp only [deepCloneStep, hca, hf, hp] at heq
        exact absurd heq (by simp)
      | outOfFuel =>
        simp only [deepCloneStep, hca, hf, hp] at heq
        exact absurd heq (by simp)
    | set elems =>
      cases hp : popSetWith (deepCloneF fuel) h.next (h.alloc (.set []))
          ((a, h.next) :: c) elems with
      | ok h2 c2 =>
        simp only [deepCloneStep, hca, hf, hp] at heq
        injection heq with e1 e2 e3
        subst e2
        subst e3
        obtain ⟨e, p⟩ := popSetWith_ext (deepCloneF_ext fuel) h.next elems _ _ _ _ hp
        exact ⟨rfl, p a h.next hcons⟩
      | typeError =>
        simp only [deepCloneStep, hca, hf, hp] at heq
        exact absurd heq (by simp)
      | outOfFuel =>
        simp only [deepCloneStep, hca, hf, hp] at heq
        exact absurd heq (by simp)
    | date t => simp [Node.registering] at hreg
    | regex s f => simp [Node.registering] at hreg
    | weakMap => simp [Node.registering] at hreg
    | weakSet => simp [Node.registering] at hreg
    | weakRef t => simp [Node.registering] at hreg
    | promise => simp [Node.registering] at hreg
    | sharedArrayBuf bs => simp [Node.registering] at hreg
    | typedArr bs => simp [Node.registering] at hreg
    | dataView bs => simp [Node.registering] at hreg
    | arrayBuf bs => simp [Node.registering] at hreg
    | nodeBuffer bs => simp [Node.registering] at hreg
    | boxed p => simp [Node.registering] at hreg

theorem popObjWith_preserves (fuel : Nat) :
    ∀ (l : List (PKey × Val)) (h : Heap) (c : Cache) (r : Nat) (k : PKey) (w : Val)
      (gs : List (PKey × Val)),
      (∀ p ∈ l, (p.1 : PKey) ≠ k) → r < h.next →
      h.find r = some (.obj gs) → aget gs k = some w →
      ∀ h' c', popObjWith (deepCloneF fuel) r h c l = .ok h' c' →
        ∃ gs', h'.find r = some (.obj gs') ∧ aget gs' k = some w := by
  intro l
  induction l with
  | nil =>
    intro h c r k w gs _ _ hfr hwk h' c' heq
    injection heq with e1 e2
    subst e1
    exact ⟨gs, hfr, hwk⟩
  | cons p rest ih =>
    obtain ⟨k1, v1⟩ := p
    intro h c r k w gs hne hr hfr hwk h' c' heq
    cases hc : deepCloneF fuel h c v1 with
    | ok h1 c1 w1 =>
      simp only [popObjWith, hc] at heq
      obtain ⟨e1, p1⟩ := deepCloneF_ext fuel h c v1 h1 c1 w1 hc
      have hfr1 : h1.find r = some (.obj gs) := by rw [e1.2 r hr]; exact hfr
      rw [hfr1] at heq
      have hne1 : k1 ≠ k := hne (k1, v1) (by simp)
      have hstorefind : (h1.store r (.obj (aset gs k1 w1))).find r =
          some (.obj (aset gs k1 w1)) := Heap.find_store_self h1 r _
      have hget : aget (aset gs k1 w1) k = some w := by
        rw [aget_aset, if_neg (fun hc2 => hne1 hc2.symm)]
        exact hwk
      exact ih _ c1 r k w (aset gs k1 w1) (fun p hp => hne p (by simp [hp]))
        (by rw [Heap.next_store]; exact lt_of_lt_of_le hr e1.1) hstorefind hget h' c' heq
    | typeError =>
      simp only [popObjWith, hc] at heq
      exact absurd heq (by simp)
    | outOfFuel =>
      simp only [popObjWith, hc] at heq
      exact absurd heq (by simp)

theorem popObjWith_self_field (fuel : Nat) :
    ∀ (l : List (PKey × Val)) (h : Heap) (c : Cache) (r p : Nat) (k : PKey),
      (k, Val.ref p) ∈ l → (l.map Prod.fst).Nodup → aget c p = some r → r < h.next →
      (∃ fs0, h.find r = some (.obj fs0)) →
      ∀ h' c', popObjWith (deepCloneF fuel) r h c l = .ok h' c' →
        ∃ gs, h'.find r = some (.obj gs) ∧ aget gs k = some (.ref r) := by
  intro l
  induction l with
  | nil => intro h c r p k hmem; exact absurd hmem (by simp)
  | cons q rest ih =>
    obtain ⟨k1, v1⟩ := q
    intro h c r p k hmem hnodup hcp hr hex h' c' heq
    obtain ⟨fs0, hfr⟩ := hex
    rcases List.mem_cons.mp hmem with hhead | htail
    · injection hhead with ek ev
      subst ek
      subst ev
      cases fuel with
      | zero =>
        simp only [popObjWith] at heq
        simp [deepCloneF] at heq
      | succ fuel =>
        have hc : deepCloneF (fuel + 1) h c (.ref p) = .ok h c (.ref r) :=
          deepCloneF_cache_hit hcp
        simp only [popObjWith, hc, hfr] at heq
        have hknotin : ∀ q ∈ rest, (q.1 : PKey) ≠ k := by
          intro q hq hqk
          have hnd := List.nodup_cons.mp hnodup
          exact hnd.1 (hqk ▸ (List.mem_map.mpr ⟨q, hq, rfl⟩))
        have hsf : (h.store r (.obj (aset fs0 k (.ref r)))).find r =
            some (.obj (aset fs0 k (.ref r))) := Heap.find_store_self h r _
        have hgk : aget (aset fs0 k (.ref r)) k = some (.ref r) := by
          rw [aget_aset, if_pos rfl]
        exact popObjWith_preserves (fuel + 1) rest _ c r k (.ref r) _ hknotin
          (by rw [Heap.next_store]; exact hr) hsf hgk h' c' heq
    · cases hc : deepCloneF fuel h c v1 with
      | ok h1 c1 w1 =>
        simp only [popObjWith, hc] at heq
        obtain ⟨e1, p1⟩ := deepCloneF_ext fuel h c v1 h1 c1 w1 hc
        have hfr1 : h1.find r = some (.obj fs0) := by rw [e1.2 r hr]; exact hfr
        rw [hfr1] at heq
        exact ih _ c1 r p k htail (List.nodup_cons.mp hnodup).2 (p1 p r hcp)
          (by rw [Heap.next_store]; exact lt_of_lt_of_le hr e1.1)
          ⟨aset fs0 k1 w1, Heap.find_store_self h1 r _⟩ h' c' heq
      | typeError =>
        simp only [popObjWith, hc] at heq
        exact absurd heq (by simp)
      | outOfFuel =>
        simp only [popObjWith, hc] at heq
        exact absurd heq (by simp)

theorem clone_unfold (h : Heap) (v : Val) :
    clone h v =
      deepCloneStep (deepCloneF ((h.next + 1) * (h.next + 1) + h.next + 1)) h [] v := rfl

/-! ## The claims about the structural cloner -/

/-- **C2**: for a self-referential object `o` with `o.self === o`, `clone`
returns a new object distinct from `o` whose self-reference points at the
clone itself: `c.self === c` and `c !== o`.  Stated over any well-formed
heap, conditional on the cloner returning a result (termination is settled
separately): the clone lives at a fresh address `q ≠ p` and its field `k`
references `q` itself. -/
theorem claim_C2_self_reference (h : Heap) (p : Nat) (fs : List (PKey × Val)) (k : PKey)
    (h' : Heap) (c' : Cache) (v' : Val)
    (hw : wfHeapB h = true) (hfind : h.find p = some (.obj fs))
    (hself : aget fs k = some (.ref p)) (hnodup : (fs.map Prod.fst).Nodup)
    (hok : clone h (.ref p) = .ok h' c' v') :
    ∃ q gs, v' = .ref q ∧ q ≠ p ∧ h'.find q = some (.obj gs) ∧
      aget gs k = some (.ref q) := by
  have hpN : p < h.next := wf_dom hw hfind
  rw [clone_unfold] at hok
  cases hp : popObjWith (deepCloneF ((h.next + 1) * (h.next + 1) + h.next + 1)) h.next
      (h.alloc (.obj [])) [(p, h.next)] fs with
  | ok h2 c2 =>
    simp only [deepCloneStep, aget, hfind, hp] at hok
    injection hok with e1 e2 e3
    subst e1
    obtain ⟨gs, hg1, hg2⟩ := popObjWith_self_field _ fs (h.alloc (.obj [])) [(p, h.next)]
      h.next p k (aget_mem hself) hnodup (by rw [aget_cons, if_pos rfl])
      (by rw [Heap.next_alloc]; omega) ⟨[], Heap.find_alloc_self h _⟩ h2 c2 hp
    exact ⟨h.next, gs, e3.symm, by omega, hg1, hg2⟩
  | typeError =>
    simp only [deepCloneStep, aget, hfind, hp] at hok
    exact absurd hok (by simp)
  | outOfFuel =>
    simp only [deepCloneStep, aget, hfind, hp] at hok
    exact absurd hok (by simp)

/-- Closed instance of C2 on the one-node heap `{self: o}` with `o.self === o`:
the clone is the fresh object at address 1, distinct from address 0, and its
`self` field references address 1. -/
theorem claim_C2_self_reference_witness :
    ∃ q gs, (Val.ref 1) = .ref q ∧ q ≠ 0 ∧
      (Heap.mk 2 [(1, .obj [(kSelf, .ref 1)]), (1, .obj []),
        (0, .obj [(kSelf, .ref 0)])]).find q = some (.obj gs) ∧
      aget gs kSelf = some (.ref q) :=
  claim_C2_self_reference hSelf 0 [(kSelf, .ref 0)] kSelf
    ⟨2, [(1, .obj [(kSelf, .ref 1)]), (1, .obj []), (0, .obj [(kSelf, .ref 0)])]⟩
    [(0, 1)] (.ref 1) (by decide) (by decide) (by decide) (by decide) (by decide)

/-- **C3** (amended): `clone` terminates on every finite well-formed input
graph, including self-referential and mutually-referential composites.  The
arrays, maps, sets and generic objects are registered in the `VisitedSet`
before their children are cloned, which cuts every cycle through them; the
`WeakRef` branch recurses *without* registering, but `WeakRef` targets are
fixed at construction, so chains of dereferences descend in allocation order
and terminate.  Formally: with the fuel budget `cloneFuel` — sufficient for
the recursion depth of any well-formed heap — the cloner never exhausts its
fuel. -/
theorem claim_C3_clone_terminates (h : Heap) (v : Val)
    (hw : wfHeapB h = true) (hv : Val.refLt v h.next = true) :
    clone h v ≠ .outOfFuel := by
  have hok : HeapOkBelow h h.next := wf_heapOk hw
  have hcb : CacheBelow [] h.next := fun p hp => absurd hp (by simp)
  have hfuel : unhit h.next [] * (h.next + 1) + rankV v + 1 ≤ cloneFuel h := by
    rw [unhit_nil]
    have hrank : rankV v ≤ h.next := rankV_le hv
    unfold cloneFuel
    have hexp : (h.next + 1) * (h.next + 1) = h.next * (h.next + 1) + (h.next + 1) := by
      ring
    omega
  exact (deepCloneF_term (cloneFuel h) h.next h [] v hok hcb (le_refl _) hv hfuel).1

/-- Closed instance of the amended C3: cloning the `WeakRef` cycle
`o = {x: w}, w = new WeakRef(o)` terminates. -/
theorem claim_C3_clone_terminates_witness :
    clone hWkCycle (.ref 1) ≠ CRes.outOfFuel :=
  claim_C3_clone_terminates hWkCycle (.ref 1) (by decide) (by decide)

/-- Counterexample to C3 as stated: its justification — "the recursion never
revisits a composite already being cloned in the same invocation, because
every recursively-populated composite is entered into the VisitedSet before
its children are cloned" — is false for the `WeakRef` branch.  Cloning the
cycle `o = {x: w}, w = new WeakRef(o)` from `w` (address 1), the `WeakRef`
is recursively populated yet the final `VisitedSet` has no entry for it
(only `(0, 2)` for the plain object), and the recursion revisited it: two
distinct `WeakRef` clones exist, at addresses 3 (reached from the cloned
object's field `x`) and 4 (the returned clone). -/
theorem claim_C3_weakref_unregistered_counterexample :
    clone hWkCycle (.ref 1) =
      .ok ⟨5, [(4, .weakRef (some (.ref 2))), (2, .obj [(kX, .ref 3)]),
        (3, .weakRef (some (.ref 2))), (2, .obj []),
        (0, .obj [(kX, .ref 1)]), (1, .weakRef (some (.ref 0)))]⟩
        [(0, 2)] (.ref 4) ∧
    aget [(0, 2)] 1 = none ∧ Val.ref 3 ≠ Val.ref 4 := by
  refine ⟨by decide, by decide, by decide⟩

/-! ## `TypeError` can arise only from re-wrapping a cleared `WeakRef` -/

theorem wkGoodHeap_store {h : Heap} {r : Nat} {nd : Node} (hg : WkGoodHeap h)
    (hnd : ∀ t, nd = .weakRef t → ∃ v, t = some v ∧ weakable v = true) :
    WkGoodHeap (h.store r nd) := by
  intro a t hf
  by_cases har : a = r
  · subst har
    rw [Heap.find_store_self] at hf
    injection hf with hf
    exact hnd t hf
  · rw [Heap.find_store_ne nd har] at hf
    exact hg a t hf

theorem wkGoodHeap_alloc {h : Heap} {nd : Node} (hg : WkGoodHeap h)
    (hnd : ∀ t, nd = .weakRef t → ∃ v, t = some v ∧ weakable v = true) :
    WkGoodHeap (h.alloc nd) := by
  intro a t hf
  by_cases har : a = h.next
  · subst har
    rw [Heap.find_alloc_self] at hf
    injection hf with hf
    exact hnd t hf
  · have hred : (h.alloc nd).find a = h.find a := by
      show aget ((h.next, nd) :: h.nodes) a = aget h.nodes a
      rw [aget_cons, if_neg har]
    rw [hred] at hf
    exact hg a t hf

theorem popObjWith_noerror {cl : Heap → Cache → Val → CRes}
    (hcl : ∀ h c v, WkGoodHeap h → cl h c v ≠ .typeError ∧
      (∀ h' c' v', cl h c v = .ok h' c' v' → WkGoodHeap h')) (r : Nat) :
    ∀ (l : List (PKey × Val)) (h : Heap) (c : Cache), WkGoodHeap h →
      popObjWith cl r h c l ≠ .typeError ∧
      (∀ h' c', popObjWith cl r h c l = .ok h' c' → WkGoodHeap h') := by
  intro l
  induction l with
  | nil =>
    intro h c hg
    refine ⟨by simp [popObjWith], fun h' c' heq => ?_⟩
    injection heq with e1 e2
    subst e1
    exact hg
  | cons p rest ih =>
    obtain ⟨k, v⟩ := p
    intro h c hg
    cases hc : cl h c v with
    | ok h1 c1 v1 =>
      have hg1 : WkGoodHeap h1 := (hcl h c v hg).2 h1 c1 v1 hc
      have hg2 : WkGoodHeap (h1.store r (.obj (aset (match h1.find r with
          | some (.obj fs) => fs | _ => []) k v1))) :=
        wkGoodHeap_store hg1 (fun t ht => absurd ht (by simp))
      have hrest := ih _ c1 hg2
      refine ⟨?_, fun h' c' heq => ?_⟩
      · intro hcon
        rw [show popObjWith cl r h c ((k, v) :: rest) =
            popObjWith cl r (h1.store r (.obj (aset (match h1.find r with
              | some (.obj fs) => fs | _ => []) k v1))) c1 rest by
          simp only [popObjWith, hc]] at hcon
        exact hrest.1 hcon
      · rw [show popObjWith cl r h c ((k, v) :: rest) =
            popObjWith cl r (h1.store r (.obj (aset (match h1.find r with
              | some (.obj fs) => fs | _ => []) k v1))) c1 rest by
          simp only [popObjWith, hc]] at heq
        exact hrest.2 h' c' heq
    | typeError => exact absurd hc (hcl h c v hg).1
    | outOfFuel =>
      refine ⟨by simp [popObjWith, hc], fun h' c' heq => ?_⟩
      simp only [popObjWith, hc] at heq
      exact absurd heq (by simp)

theorem popArrWith_noerror {cl : Heap → Cache → Val → CRes}
    (hcl : ∀ h c v, WkGoodHeap h → cl h c v ≠ .typeError ∧
      (∀ h' c' v', cl h c v = .ok h' c' v' → WkGoodHeap h')) (r : Nat)
    (src : List (Nat × Val)) :
    ∀ (l : List Nat) (h : Heap) (c : Cache), WkGoodHeap h →
      popArrWith cl r src h c l ≠ .typeError ∧
      (∀ h' c', popArrWith cl r src h c l = .ok h' c' → WkGoodHeap h') := by
  intro l
  induction l with
  | nil =>
    intro h c hg
    refine ⟨by simp [popArrWith], fun h' c' heq => ?_⟩
    injection heq with e1 e2
    subst e1
    exact hg
  | cons i rest ih =>
    intro h c hg
    cases hs : aget src i with
    | none =>
      have hrest := ih h c hg
      refine ⟨?_, fun h' c' heq => ?_⟩
      · intro hcon
        rw [show popArrWith cl r src h c (i :: rest) = popArrWith cl r src h c rest by
          simp only [popArrWith, hs]] at hcon
        exact hrest.1 hcon
      · rw [show popArrWith cl r src h c (i :: rest) = popArrWith cl r src h c rest by
          simp only [popArrWith, hs]] at heq
        exact hrest.2 h' c' heq
    | some v =>
      cases hc : cl h c v with
      | ok h1 c1 v1 =>
        have hg1 : WkGoodHeap h1 := (hcl h c v hg).2 h1 c1 v1 hc
        have hg2 : WkGoodHeap (h1.store r (.arr
            (max (match h1.find r with | some (.arr len es) => (len, es) | _ => (0, [])).1
              (i + 1))
            (aset (match h1.find r with
              | some (.arr len es) => (len, es) | _ => (0, [])).2 i v1))) :=
          wkGoodHeap_store hg1 (fun t ht => absurd ht (by simp))
        have hrest := ih _ c1 hg2
        refine ⟨?_, fun h' c' heq => ?_⟩
        · intro hcon
          rw [show popArrWith cl r src h c (i :: rest) =
              popArrWith cl r src (h1.store r (.arr
                (max (match h1.find r with
                  | some (.arr len es) => (len, es) | _ => (0, [])).1 (i + 1))
                (aset (match h1.find r with
                  | some (.arr len es) => (len, es) | _ => (0, [])).2 i v1))) c1 rest by
            simp only [popArrWith, hs, hc]] at hcon
          exact hrest.1 hcon
        · rw [show popArrWith cl r src h c (i :: rest) =
              popArrWith cl r src (h1.store r (.arr
                (max (match h1.find r with
                  | some (.arr len es) => (len, es) | _ => (0, [])).1 (i + 1))
                (aset (match h1.find r with
                  | some (.arr len es) => (len, es) | _ => (0, [])).2 i v1))) c1 rest by
            simp only [popArrWith, hs, hc]] at heq
          exact hrest.2 h' c' heq
      | typeError => exact absurd hc (hcl h c v hg).1
      | outOfFuel =>
        refine ⟨by simp [popArrWith, hs, hc], fun h' c' heq => ?_⟩
        simp only [popArrWith, hs, hc] at heq
        exact absurd heq (by simp)

theorem popMapWith_noerror {cl : Heap → Cache → Val → CRes}
    (hcl : ∀ h c v, WkGoodHeap h → cl h c v ≠ .typeError ∧
      (∀ h' c' v', cl h c v = .ok h' c' v' → WkGoodHeap h')) (r : Nat) :
    ∀ (l : List (Val × Val)) (h : Heap) (c : Cache), WkGoodHeap h →
      popMapWith cl r h c l ≠ .typeError ∧
      (∀ h' c', popMapWith cl r h c l = .ok h' c' → WkGoodHeap h') := by
  intro l
  induction l with
  | nil =>
    intro h c hg
    refine ⟨by simp [popMapWith], fun h' c' heq => ?_⟩
    injection heq with e1 e2
    subst e1
    exact hg
  | cons p rest ih =>
    obtain ⟨k, v⟩ := p
    intro h c hg
    cases hc : cl h c k with
    | ok h1 c1 k1 =>
      have hg1 : WkGoodHeap h1 := (hcl h c k hg).2 h1 c1 k1 hc
      cases hc2 : cl h1 c1 v with
      | ok h2 c2 v1 =>
        have hg2 : WkGoodHeap h2 := (hcl h1 c1 v hg1).2 h2 c2 v1 hc2
        have hg3 : WkGoodHeap (h2.store r (.map (aset (match h2.find r with
            | some (.map es) => es | _ => []) k1 v1))) :=
          wkGoodHeap_store hg2 (fun t ht => absurd ht (by simp))
        have hrest := ih _ c2 hg3
        refine ⟨?_, fun h' c' heq => ?_⟩
        · intro hcon
          rw [show popMapWith cl r h c ((k, v) :: rest) =
              popMapWith cl r (h2.store r (.map (aset (match h2.find r with
                | some (.map es) => es | _ => []) k1 v1))) c2 rest by
            simp only [popMapWith, hc, hc2]] at hcon
          exact hrest.1 hcon
        · rw [show popMapWith cl r h c ((k, v) :: rest) =
              popMapWith cl r (h2.store r (.map (aset (match h2.find r with
                | some (.map es) => es | _ => []) k1 v1))) c2 rest by
            simp only [popMapWith, hc, hc2]] at heq
          exact hrest.2 h' c' heq
      | typeError => exact absurd hc2 (hcl h1 c1 v hg1).1
      | outOfFuel =>
        refine ⟨by simp [popMapWith, hc, hc2], fun h' c' heq => ?_⟩
        simp only [popMapWith, hc, hc2] at heq
        exact absurd heq (by simp)
    | typeError => exact absurd hc (hcl h c k hg).1
    | outOfFuel =>
      refine ⟨by simp [popMapWith, hc], fun h' c' heq => ?_⟩
      simp only [popMapWith, hc] at heq
      exact absurd heq (by simp)

theorem popSetWith_noerror {cl : Heap → Cache → Val → CRes}
    (hcl : ∀ h c v, WkGoodHeap h → cl h c v ≠ .typeError ∧
      (∀ h' c' v', cl h c v = .ok h' c' v' → WkGoodHeap h')) (r : Nat) :
    ∀ (l : List Val) (h : Heap) (c : Cache), WkGoodHeap h →
      popSetWith cl r h c l ≠ .typeError ∧
      (∀ h' c', popSetWith cl r h c l = .ok h' c' → WkGoodHeap h') := by
  intro l
  induction l with
  | nil =>
    intro h c hg
    refine ⟨by simp [popSetWith], fun h' c' heq => ?_⟩
    injection heq with e1 e2
    subst e1
    exact hg
  | cons v rest ih =>
    intro h c hg
    cases hc : cl h c v with
    | ok h1 c1 v1 =>
      have hg1 : WkGoodHeap h1 := (hcl h c v hg).2 h1 c1 v1 hc
      have hg2 : WkGoodHeap (h1.store r (.set
          (if (match h1.find r with | some (.set es) => es | _ => []).contains v1 then
            (match h1.find r with | some (.set es) => es | _ => [])
          else (match h1.find r with | some (.set es) => es | _ => []) ++ [v1]))) :=
        wkGoodHeap_store hg1 (fun t ht => absurd ht (by simp))
      have hrest := ih _ c1 hg2
      refine ⟨?_, fun h' c' heq => ?_⟩
      · intro hcon
        rw [show popSetWith cl r h c (v :: rest) =
            popSetWith cl r (h1.store r (.set
              (if (match h1.find r with | some (.set es) => es | _ => []).contains v1 then
                (match h1.find r with | some (.set es) => es | _ => [])
              else (match h1.find r with
                | some (.set es) => es | _ => []) ++ [v1]))) c1 rest by
          simp only [popSetWith, hc]] at hcon
        exact hrest.1 hcon
      · rw [show popSetWith cl r h c (v :: rest) =
            popSetWith cl r (h1.store r (.set
              (if (match h1.find r with | some (.set es) => es | _ => []).contains v1 then
                (match h1.find r with | some (.set es) => es | _ => [])
              else (match h1.find r with
                | some (.set es) => es | _ => []) ++ [v1]))) c1 rest by
          simp only [popSetWith, hc]] at heq
        exact hrest.2 h' c' heq
    | typeError => exact absurd hc (hcl h c v hg).1
    | outOfFuel =>
      refine ⟨by simp [popSetWith, hc], fun h' c' heq => ?_⟩
      simp only [popSetWith, hc] at heq
      exact absurd heq (by simp)

theorem deepCloneStep_noerror {cl : Heap → Cache → Val → CRes}
    (hcl : ∀ h c v, WkGoodHeap h → cl h c v ≠ .typeError ∧
      (∀ h' c' v', cl h c v = .ok h' c' v' → WkGoodHeap h' ∧
        (∀ a, v = .ref a → ∃ b, v' = .ref b) ∧ (∀ p, v = .prim p → v' = .prim p))) :
    ∀ h c v, WkGoodHeap h → deepCloneStep cl h c v ≠ .typeError ∧
      (∀ h' c' v', deepCloneStep cl h c v = .ok h' c' v' → WkGoodHeap h' ∧
        (∀ a, v = .ref a → ∃ b, v' = .ref b) ∧ (∀ p, v = .prim p → v' = .prim p)) := by
  have hcl' : ∀ h c v, WkGoodHeap h → cl h c v ≠ .typeError ∧
      (∀ h' c' v', cl h c v = .ok h' c' v' → WkGoodHeap h') :=
    fun h c v hg => ⟨(hcl h c v hg).1, fun h' c' v' heq => ((hcl h c v hg).2 h' c' v' heq).1⟩
  intro h c v hg
  cases v with
  | prim p =>
    refine ⟨by simp [deepCloneStep], fun h' c' v' heq => ?_⟩
    simp only [deepCloneStep] at heq
    injection heq with e1 e2 e3
    subst e1
    subst e3
    exact ⟨hg, fun a ha => absurd ha (by simp), fun q hq => by injection hq with hq; rw [hq]⟩
  | ref a =>
    have hshape : ∀ (h' : Heap) (c' : Cache) (b : Nat), WkGoodHeap h' →
        WkGoodHeap h' ∧ (∀ a0, Val.ref a = .ref a0 → ∃ b0, Val.ref b = .ref b0) ∧
          (∀ p, Val.ref a = .prim p → Val.ref b = .prim p) :=
      fun h' c' b hg' => ⟨hg', fun a0 _ => ⟨b, rfl⟩, fun p hp => absurd hp (by simp)⟩
    cases hca : aget c a with
    | some r =>
      refine ⟨by simp [deepCloneStep, hca], fun h' c' v' heq => ?_⟩
      simp only [deepCloneStep, hca] at heq
      injection heq with e1 e2 e3
      subst e1
      subst e3
      exact hshape h c' r hg
    | none =>
      cases hf : h.find a with
      | none =>
        refine ⟨by simp [deepCloneStep, hca, hf], fun h' c' v' heq => ?_⟩
        simp only [deepCloneStep, hca, hf] at heq
        injection heq with e1 e2 e3
        subst e1
        subst e3
        exact hshape h c' a hg
      | some nd =>
        cases nd with
        | obj fields =>
          have hga : WkGoodHeap (h.alloc (.obj [])) :=
            wkGoodHeap_alloc hg (fun t ht => absurd ht (by simp))
          have hpop := popObjWith_noerror hcl' h.next fields (h.alloc (.obj []))
            ((a, h.next) :: c) hga
          cases hp : popObjWith cl h.next (h.alloc (.obj [])) ((a, h.next) :: c) fields with
          | ok h2 c2 =>
            refine ⟨by simp [deepCloneStep, hca, hf, hp], fun h' c' v' heq => ?_⟩
            simp only [deepCloneStep, hca, hf, hp] at heq
            injection heq with e1 e2 e3
            subst e1
            subst e3
            exact hshape h2 c' h.next (hpop.2 h2 c2 hp)
          | typeError => exact absurd hp hpop.1
          | outOfFuel =>
            refine ⟨by simp [deepCloneStep, hca, hf, hp], fun h' c' v' heq => ?_⟩
            simp only [deepCloneStep, hca, hf, hp] at heq
            exact absurd heq (by simp)
        | arr len elems =>
          have hga : WkGoodHeap (h.alloc (.arr 0 [])) :=
            wkGoodHeap_alloc hg (fun t ht => absurd ht (by simp))
          have hpop := popArrWith_noerror hcl' h.next elems (List.range len)
            (h.alloc (.arr 0 [])) ((a, h.next) :: c) hga
          cases hp : popArrWith cl h.next elems (h.alloc (.arr 0 []))
              ((a, h.next) :: c) (List.range len) with
          | ok h2 c2 =>
            refine ⟨by simp [deepCloneStep, hca, hf, hp], fun h' c' v' heq => ?_⟩
            simp only [deepCloneStep, hca, hf, hp] at heq
            injection heq with e1 e2 e3
            subst e1
            subst e3
            exact hshape h2 c' h.next (hpop.2 h2 c2 hp)
          | typeError => exact absurd hp hpop.1
          | outOfFuel =>
            refine ⟨by simp [deepCloneStep, hca, hf, hp], fun h' c' v' heq => ?_⟩
            simp only [deepCloneStep, hca, hf, hp] at heq
            exact absurd heq (by simp)
        | map entries =>
          have hga : WkGoodHeap (h.alloc (.map [])) :=
            wkGoodHeap_alloc hg (fun t ht => absurd ht (by simp))
          have hpop := popMapWith_noerror hcl' h.next entries (h.alloc (.map []))
            ((a, h.next) :: c) hga
          cases hp : popMapWith cl h.next (h.alloc (.map [])) ((a, h.next) :: c) entries with
          | ok h2 c2 =>
            refine ⟨by simp [deepCloneStep, hca, hf, hp], fun h' c' v' heq => ?_⟩
            simp only [deepCloneStep, hca, hf, hp] at heq
            injection heq with e1 e2 e3
            subst e1
            subst e3
            exact hshape h2 c' h.next (hpop.2 h2 c2 hp)
          | typeError => exact absurd hp hpop.1
          | outOfFuel =>
            refine ⟨by simp [deepCloneStep, hca, hf, hp], fun h' c' v' heq => ?_⟩
            simp only [deepCloneStep, hca, hf, hp] at heq
            exact absurd heq (by simp)
        | set elems =>
          have hga : WkGoodHeap (h.alloc (.set [])) :=
            wkGoodHeap_alloc hg (fun t ht => absurd ht (by simp))
          have hpop := popSetWith_noerror hcl' h.next elems (h.alloc (.set []))
            ((a, h.next) :: c) hga
          cases hp : popSetWith cl h.next (h.alloc (.set [])) ((a, h.next) :: c) elems with
          | ok h2 c2 =>
            refine ⟨by simp [deepCloneStep, hca, hf, hp], fun h' c' v' heq => ?_⟩
            simp only [deepCloneStep, hca, hf, hp] at heq
            injection heq with e1 e2 e3
            subst e1
            subst e3
            exact hshape h2 c' h.next (hpop.2 h2 c2 hp)
          | typeError => exact absurd hp hpop.1
          | outOfFuel =>
            refine ⟨by simp [deepCloneStep, hca, hf, hp], fun h' c' v' heq => ?_⟩
            simp only [deepCloneStep, hca, hf, hp] at heq
            exact absurd heq (by simp)
        | date t =>
          refine ⟨by simp [deepCloneStep, hca, hf], fun h' c' v' heq => ?_⟩
          simp only [deepCloneStep, hca, hf] at heq
          injection heq with e1 e2 e3
          subst e1
          subst e3
          exact hshape _ c' h.next (wkGoodHeap_alloc hg (fun t ht => absurd ht (by simp)))
        | regex s f =>
          refine ⟨by simp [deepCloneStep, hca, hf], fun h' c' v' heq => ?_⟩
          simp only [deepCloneStep, hca, hf] at heq
          injection heq with e1 e2 e3
          subst e1
          subst e3
          exact hshape _ c' h.next (wkGoodHeap_alloc hg (fun t ht => absurd ht (by simp)))
        | weakMap =>
          refine ⟨by simp [deepCloneStep, hca, hf], fun h' c' v' heq => ?_⟩
          simp only [deepCloneStep, hca, hf] at heq
          injection heq with e1 e2 e3
          subst e1
          subst e3
          exact hshape h c' a hg
        | weakSet =>
          refine ⟨by simp [deepCloneStep, hca, hf], fun h' c' v' heq => ?_⟩
          simp only [deepCloneStep, hca, hf] at heq
          injection heq with e1 e2 e3
          subst e1
          subst e3
          exact hshape h c' a hg
        | weakRef t =>
          obtain ⟨v0, ht0, hwk0⟩ := hg a t hf
          subst ht0
          have hchild := hcl h c v0 hg
          cases hc : cl h c v0 with
          | ok h1 c1 v1 =>
            obtain ⟨hg1, hsr, hsp⟩ := hchild.2 h1 c1 v1 hc
            have hwk1 : weakable v1 = true := by
              cases v0 with
              | ref b =>
                obtain ⟨b1, hb1⟩ := hsr b rfl
                rw [hb1]
                rfl
              | prim q =>
                cases q with
                | sym i => rw [hsp (.sym i) rfl]; rfl
                | undefined => simp [weakable] at hwk0
                | null => simp [weakable] at hwk0
                | bool b => simp [weakable] at hwk0
                | num n => simp [weakable] at hwk0
                | str s => simp [weakable] at hwk0
                | bigintP n => simp [weakable] at hwk0
            have hga : WkGoodHeap (h1.alloc (.weakRef (some v1))) :=
              wkGoodHeap_alloc hg1 (fun tt htt => by
                injection htt with htt
                exact ⟨v1, htt.symm, hwk1⟩)
            refine ⟨?_, fun h' c' v' heq => ?_⟩
            · show deepCloneStep cl h c (.ref a) ≠ .typeError
              simp only [deepCloneStep, hca, hf]
              show (match Option.getD (some v0) (Val.prim .undefined) with
                | v2 => match cl h c v2 with
                  | CRes.ok h1 c1 v1 =>
                    if weakable v1 = true then
                      CRes.ok (h1.alloc (.weakRef (some v1))) c1 (.ref h1.next)
                    else CRes.typeError
                  | CRes.typeError => CRes.typeError
                  | CRes.outOfFuel => CRes.outOfFuel) ≠ CRes.typeError
              simp only [Option.getD, hc, hwk1, if_true]
              simp
            · simp only [deepCloneStep, hca, hf, Option.getD, hc, hwk1, if_true] at heq
              injection heq with e1 e2 e3
              subst e1
              subst e3
              exact hshape _ c' h1.next hga
          | typeError => exact absurd hc hchild.1
          | outOfFuel =>
            refine ⟨?_, fun h' c' v' heq => ?_⟩
            · simp only [deepCloneStep, hca, hf, Option.getD, hc]
              simp
            · simp only [deepCloneStep, hca, hf, Option.getD, hc] at heq
              exact absurd heq (by simp)
        | promise =>
          refine ⟨by simp [deepCloneStep, hca, hf], fun h' c' v' heq => ?_⟩
          simp only [deepCloneStep, hca, hf] at heq
          injection heq with e1 e2 e3
          subst e1
          subst e3
          exact hshape h c' a hg
        | sharedArrayBuf bs =>
          refine ⟨by simp [deepCloneStep, hca, hf], fun h' c' v' heq => ?_⟩
          simp only [deepCloneStep, hca, hf] at heq
          injection heq with e1 e2 e3
          subst e1
          subst e3
          exact hshape h c' a hg
        | typedArr bs =>
          refine ⟨by simp [deepCloneStep, hca, hf], fun h' c' v' heq => ?_⟩
          simp only [deepCloneStep, hca, hf] at heq
          injection heq with e1 e2 e3
          subst e1
          subst e3
          exact hshape _ c' h.next (wkGoodHeap_alloc hg (fun t ht => absurd ht (by simp)))
        | dataView bs =>
          refine ⟨by simp [deepCloneStep, hca, hf], fun h' c' v' heq => ?_⟩
          simp only [deepCloneStep, hca, hf] at heq
          injection heq with e1 e2 e3
          subst e1
          subst e3
          exact hshape _ c' h.next (wkGoodHeap_alloc hg (fun t ht => absurd ht (by simp)))
        | arrayBuf bs =>
          refine ⟨by simp [deepCloneStep, hca, hf], fun h' c' v' heq => ?_⟩
          simp only [deepCloneStep, hca, hf] at heq
          injection heq with e1 e2 e3
          subst e1
          subst e3
          exact hshape _ c' h.next (wkGoodHeap_alloc hg (fun t ht => absurd ht (by simp)))
        | nodeBuffer bs =>
          refine ⟨by simp [deepCloneStep, hca, hf], fun h' c' v' heq => ?_⟩
          simp only [deepCloneStep, hca, hf] at heq
          injection heq with e1 e2 e3
          subst e1
          subst e3
          exact hshape _ c' h.next (wkGoodHeap_alloc hg (fun t ht => absurd ht (by simp)))
        | boxed p =>
          refine ⟨by simp [deepCloneStep, hca, hf], fun h' c' v' heq => ?_⟩
          simp only [deepCloneStep, hca, hf] at heq
          injection heq with e1 e2 e3
          subst e1
          subst e3
          exact hshape _ c' h.next (wkGoodHeap_alloc hg (fun t ht => absurd ht (by simp)))

theorem deepCloneF_noerror : ∀ (fuel : Nat) (h : Heap) (c : Cache) (v : Val),
    WkGoodHeap h → deepCloneF fuel h c v ≠ .typeError ∧
      (∀ h' c' v', deepCloneF fuel h c v = .ok h' c' v' → WkGoodHeap h' ∧
        (∀ a, v = .ref a → ∃ b, v' = .ref b) ∧ (∀ p, v = .prim p → v' = .prim p)) := by
  intro fuel
  induction fuel with
  | zero =>
    intro h c v hg
    refine ⟨by simp [deepCloneF], fun h' c' v' heq => ?_⟩
    exact absurd heq (by simp [deepCloneF])
  | succ fuel ih => exact deepCloneStep_noerror ih

theorem wkGoodHeap_of_bool {h : Heap} (hg : wkGoodB h = true) : WkGoodHeap h := by
  intro a t hf
  have hm := aget_mem hf
  have := (List.all_eq_true.mp hg) (a, .weakRef t) hm
  cases t with
  | none => simp at this
  | some v => exact ⟨v, rfl, by simpa using this⟩

/-- **C4** (amended): for every well-formed input over a heap in which no
`WeakRef` has been cleared, `clone` raises no error; the unsafe-to-duplicate
types (`WeakMap`, `WeakSet`, `Promise`, `SharedArrayBuffer`) degrade to
returning the original reference (with the heap and cache untouched) rather
than failing, and no other branch of the traversal throws.  The restriction
to non-cleared `WeakRef`s is forced: re-wrapping a cleared one calls
`new WeakRef(undefined)`, which throws (see the counterexample). -/
theorem claim_C4_no_error_and_aliasing (h : Heap) (v : Val)
    (hg : wkGoodB h = true) :
    clone h v ≠ .typeError ∧
    (∀ a, h.find a = some .weakMap → clone h (.ref a) = .ok h [] (.ref a)) ∧
    (∀ a, h.find a = some .weakSet → clone h (.ref a) = .ok h [] (.ref a)) ∧
    (∀ a, h.find a = some .promise → clone h (.ref a) = .ok h [] (.ref a)) ∧
    (∀ a bs, h.find a = some (.sharedArrayBuf bs) → clone h (.ref a) = .ok h [] (.ref a)) := by
  have hgh : WkGoodHeap h := wkGoodHeap_of_bool hg
  refine ⟨(deepCloneF_noerror (cloneFuel h) h [] v hgh).1, ?_, ?_, ?_, ?_⟩
  · intro a hfa
    rw [clone_unfold]
    simp [deepCloneStep, aget, hfa]
  · intro a hfa
    rw [clone_unfold]
    simp [deepCloneStep, aget, hfa]
  · intro a hfa
    rw [clone_unfold]
    simp [deepCloneStep, aget, hfa]
  · intro a bs hfa
    rw [clone_unfold]
    simp [deepCloneStep, aget, hfa]

/-- Closed instance of the amended C4: cloning the live-`WeakRef` cycle heap
raises no error. -/
theorem claim_C4_no_error_and_aliasing_witness :
    clone hWkCycle (.ref 0) ≠ CRes.typeError :=
  (claim_C4_no_error_and_aliasing hWkCycle (.ref 0) (by decide)).1

/-- Counterexample to C4 as stated ("whatever their dereferenced state"):
cloning a cleared `WeakRef` throws.  `deref()` yields `undefined`, its clone
is `undefined`, and `new WeakRef(undefined)` raises a `TypeError`. -/
theorem claim_C4_cleared_weakref_counterexample :
    clone hCleared (.ref 0) = CRes.typeError := by decide

/-- **C1** (amended): a composite sub-value reachable from two different
paths is cloned to one single shared clone object *for the categories
registered in the VisitedSet* — generic objects, arrays, maps and sets: for
`o = {a: shared, b: shared}` with `shared` of a registering category, both
fields of the clone reference the identical clone instance.  Dates, regexes,
boxed primitives and binary buffers are *not* registered: each encounter
allocates a fresh copy, so sharing (and the claim as stated) fails for them
(see the counterexample). -/
theorem claim_C1_shared_reference (h : Heap) (p s : Nat) (ka kb : PKey) (nd : Node)
    (h' : Heap) (c' : Cache) (v' : Val)
    (hw : wfHeapB h = true)
    (hfind : h.find p = some (.obj [(ka, .ref s), (kb, .ref s)]))
    (hkk : ka ≠ kb) (hsp : s ≠ p)
    (hs : h.find s = some nd) (hreg : nd.registering = true)
    (hok : clone h (.ref p) = .ok h' c' v') :
    ∃ q t, v' = .ref q ∧ h'.find q = some (.obj [(ka, .ref t), (kb, .ref t)]) := by
  have hsN : s < h.next := wf_dom hw hs
  rw [clone_unfold] at hok
  cases hp : popObjWith (deepCloneF ((h.next + 1) * (h.next + 1) + h.next + 1)) h.next
      (h.alloc (.obj [])) [(p, h.next)] [(ka, .ref s), (kb, .ref s)] with
  | ok h2 c2 =>
    simp only [deepCloneStep, aget, hfind, hp] at hok
    injection hok with e1 e2 e3
    subst e1
    subst e2
    cases hc1 : deepCloneF ((h.next + 1) * (h.next + 1) + h.next + 1)
        (h.alloc (.obj [])) [(p, h.next)] (.ref s) with
    | ok ha cb vv =>
      have hca1 : aget [(p, h.next)] s = none := by
        rw [aget_cons, if_neg hsp]
        rfl
      have hf1 : (h.alloc (.obj [])).find s = some nd := by
        rw [Heap.find_alloc_lt _ hsN]
        exact hs
      obtain ⟨hvv, hcbs⟩ := deepCloneF_registering hca1 hf1 hreg hc1
      obtain ⟨e1x, p1x⟩ := deepCloneF_ext _ _ _ _ _ _ _ hc1
      have hfr : ha.find h.next = some (.obj []) := by
        rw [e1x.2 h.next (by rw [Heap.next_alloc]; omega)]
        exact Heap.find_alloc_self h _
      subst hvv
      simp only [popObjWith, hc1] at hp
      rw [hfr] at hp
      have hchit : deepCloneF ((h.next + 1) * (h.next + 1) + h.next + 1)
          (ha.store h.next (.obj (aset [] ka (.ref (h.alloc (.obj [])).next))))
          cb (.ref s) =
          .ok (ha.store h.next (.obj (aset [] ka (.ref (h.alloc (.obj [])).next))))
            cb (.ref (h.alloc (.obj [])).next) :=
        deepCloneF_cache_hit hcbs
      simp only [popObjWith, hchit] at hp
      rw [Heap.find_store_self] at hp
      simp only [popObjWith] at hp
      injection hp with e4 e5
      subst e4
      refine ⟨h.next, (h.alloc (.obj [])).next, e3.symm, ?_⟩
      rw [Heap.find_store_self]
      have haset : aset (aset ([] : List (PKey × Val)) ka
          (.ref (h.alloc (.obj [])).next)) kb (.ref (h.alloc (.obj [])).next) =
          [(ka, .ref (h.alloc (.obj [])).next), (kb, .ref (h.alloc (.obj [])).next)] := by
        simp [aset, Ne.symm hkk]
      rw [haset]
    | typeError =>
      simp only [popObjWith, hc1] at hp
      exact absurd hp (by simp)
    | outOfFuel =>
      simp only [popObjWith, hc1] at hp
      exact absurd hp (by simp)
  | typeError =>
    simp only [deepCloneStep, aget, hfind, hp] at hok
    exact absurd hok (by simp)
  | outOfFuel =>
    simp only [deepCloneStep, aget, hfind, hp] at hok
    exact absurd hok (by simp)

/-- Closed instance of the amended C1 on `{a: shared, b: shared}` with
`shared` an empty plain object: both fields of the clone reference the same
clone address. -/
theorem claim_C1_shared_reference_witness :
    ∃ q t, (Val.ref 2) = .ref q ∧
      (Heap.mk 4 [(2, .obj [(kA, .ref 3), (kB, .ref 3)]), (2, .obj [(kA, .ref 3)]),
        (3, .obj []), (2, .obj []), (0, .obj []),
        (1, .obj [(kA, .ref 0), (kB, .ref 0)])]).find q =
        some (.obj [(kA, .ref t), (kB, .ref t)]) :=
  claim_C1_shared_reference hObjShared 1 0 kA kB (.obj [])
    ⟨4, [(2, .obj [(kA, .ref 3), (kB, .ref 3)]), (2, .obj [(kA, .ref 3)]),
      (3, .obj []), (2, .obj []), (0, .obj []),
      (1, .obj [(kA, .ref 0), (kB, .ref 0)])]⟩
    [(0, 3), (1, 2)] (.ref 2)
    (by decide) (by decide) (by decide) (by decide) (by decide) (by decide) (by decide)

/-- Counterexample to C1 as stated: `Date` (like regexes, boxed primitives
and binary buffers) is cloned without cache registration, so the shared
`Date` of `{a: shared, b: shared}` clones to two distinct objects:
`c.a !== c.b`. -/
theorem claim_C1_date_not_shared_counterexample :
    cloneField hDateShared (.ref 1) kA = some (.ref 3) ∧
    cloneField hDateShared (.ref 1) kB = some (.ref 4) ∧
    Val.ref 3 ≠ Val.ref 4 := by
  refine ⟨by decide, by decide, by decide⟩

/-! ## Shape of cloned sparse arrays -/

theorem aget_append {κ α : Type} [DecidableEq κ] (l1 l2 : List (κ × α)) (k : κ) :
    aget (l1 ++ l2) k = match aget l1 k with
      | some a => some a
      | none => aget l2 k := by
  induction l1 with
  | nil => simp [aget]
  | cons p r ih =>
    obtain ⟨kk, aa⟩ := p
    rw [List.cons_append, aget_cons, aget_cons]
    by_cases hk : k = kk
    · simp [hk]
    · simp only [if_neg hk]
      exact ih

theorem aset_append {κ α : Type} [DecidableEq κ] {l : List (κ × α)} {k : κ} (a : α)
    (h : aget l k = none) : aset l k a = l ++ [(k, a)] := by
  induction l with
  | nil => rfl
  | cons p r ih =>
    obtain ⟨kk, aa⟩ := p
    rw [aget_cons] at h
    by_cases hk : k = kk
    · rw [if_pos hk] at h
      exact absurd h (by simp)
    · rw [if_neg hk] at h
      simp only [aset, if_neg hk, List.cons_append]
      rw [ih h]

theorem deepCloneF_prim_ok {fuel : Nat} {h : Heap} {c : Cache} {p : Prim}
    {h' : Heap} {c' : Cache} {v' : Val}
    (heq : deepCloneF fuel h c (.prim p) = .ok h' c' v') :
    v' = .prim p ∧ h' = h ∧ c' = c := by
  cases fuel with
  | zero => exact absurd heq (by simp [deepCloneF])
  | succ fuel =>
    replace heq : deepCloneStep (deepCloneF fuel) h c (.prim p) = .ok h' c' v' := heq
    simp only [deepCloneStep] at heq
    injection heq with e1 e2 e3
    exact ⟨e3.symm, e1.symm, e2.symm⟩

theorem ascKeysB_ge {lo : Nat} : ∀ {l : List (Nat × Val)}, ascKeysB lo l = true →
    ∀ q ∈ l, lo ≤ (q.1 : Nat) := by
  intro l
  induction l generalizing lo with
  | nil => intro _ q hq; exact absurd hq (by simp)
  | cons p r ih =>
    obtain ⟨i, v⟩ := p
    intro hasc q hq
    simp only [ascKeysB, Bool.and_eq_true, decide_eq_true_eq] at hasc
    rcases List.mem_cons.mp hq with hh | ht
    · subst hh
      exact hasc.1
    · exact le_trans (Nat.le_succ_of_le hasc.1) (ih hasc.2 q ht)

theorem aget_none_of_lt_asc {lo : Nat} : ∀ {l : List (Nat × Val)},
    ascKeysB lo l = true → ∀ j, j < lo → aget l j = none := by
  intro l
  induction l generalizing lo with
  | nil => intro _ j _; rfl
  | cons p r ih =>
    obtain ⟨i, v⟩ := p
    intro hasc j hj
    simp only [ascKeysB, Bool.and_eq_true, decide_eq_true_eq] at hasc
    rw [aget_cons, if_neg (by omega)]
    exact ih hasc.2 j (by omega)

theorem arrLenFold_congr (src src' : List (Nat × Val)) :
    ∀ (idxs : List Nat) (L : Nat), (∀ i ∈ idxs, aget src i = aget src' i) →
    arrLenFold src L idxs = arrLenFold src' L idxs := by
  intro idxs
  induction idxs with
  | nil => intro L _; rfl
  | cons i rest ih =>
    intro L hcongr
    simp only [arrLenFold, hcongr i (by simp)]
    exact ih _ (fun j hj => hcongr j (by simp [hj]))

theorem arr_range_spec : ∀ (n lo : Nat) (elems : List (Nat × Val)) (L : Nat),
    ascKeysB lo elems = true → (∀ q ∈ elems, (q.1 : Nat) < lo + n) →
    (List.range' lo n).filter (fun i => (aget elems i).isSome) = elems.map Prod.fst ∧
    arrLenFold elems L (List.range' lo n) = lenAfter L elems := by
  intro n
  induction n with
  | zero =>
    intro lo elems L hasc hbound
    cases elems with
    | nil => exact ⟨rfl, rfl⟩
    | cons p r =>
      obtain ⟨i, v⟩ := p
      have h1 := ascKeysB_ge hasc (i, v) (by simp)
      have h2 := hbound (i, v) (by simp)
      omega
  | succ n ih =>
    intro lo elems L hasc hbound
    have hrange : List.range' lo (n + 1) = lo :: List.range' (lo + 1) n := by
      rw [List.range'_succ]
    cases elems with
    | nil =>
      have hnone : aget ([] : List (Nat × Val)) lo = none := rfl
      rw [hrange]
      constructor
      · rw [List.filter_cons_of_neg (by simp [hnone])]
        exact (ih (lo + 1) [] L rfl (by simp)).1
      · simp only [arrLenFold, hnone]
        exact (ih (lo + 1) [] L rfl (by simp)).2
    | cons p r =>
      obtain ⟨i0, v0⟩ := p
      simp only [ascKeysB, Bool.and_eq_true, decide_eq_true_eq] at hasc
      obtain ⟨hlo, hasc'⟩ := hasc
      by_cases hi : i0 = lo
      · subst hi
        have hsome : aget ((i0, v0) :: r) i0 = some v0 := by
          rw [aget_cons, if_pos rfl]
        have hcongr : ∀ j ∈ List.range' (i0 + 1) n,
            aget ((i0, v0) :: r) j = aget r j := by
          intro j hj
          have hjge : i0 + 1 ≤ j := (List.mem_range'_1.mp hj).1
          rw [aget_cons, if_neg (by omega)]
        have hboundr : ∀ q ∈ r, (q.1 : Nat) < (i0 + 1) + n := by
          intro q hq
          have := hbound q (by simp [hq])
          omega
        have hrec := ih (i0 + 1) r (max L (i0 + 1)) hasc' hboundr
        rw [hrange]
        constructor
        · rw [List.filter_cons_of_pos (by simp [hsome])]
          rw [List.filter_congr (by
            intro j hj
            rw [hcongr j hj])]
          rw [hrec.1]
          rfl
        · simp only [arrLenFold, hsome, Option.isSome_some, if_true]
          rw [arrLenFold_congr ((i0, v0) :: r) r _ _ hcongr]
          exact hrec.2
      · have hlt : lo < i0 := by omega
        have hnone : aget ((i0, v0) :: r) lo = none := by
          rw [aget_cons, if_neg (by omega)]
          exact aget_none_of_lt_asc hasc' lo (by omega)
        have hasc2 : ascKeysB (lo + 1) ((i0, v0) :: r) = true := by
          simp only [ascKeysB, Bool.and_eq_true, decide_eq_true_eq]
          exact ⟨by omega, hasc'⟩
        have hbound2 : ∀ q ∈ (i0, v0) :: r, (q.1 : Nat) < (lo + 1) + n := by
          intro q hq
          have := hbound q hq
          omega
        have hrec := ih (lo + 1) ((i0, v0) :: r) L hasc2 hbound2
        rw [hrange]
        constructor
        · rw [List.filter_cons_of_neg (by simp [hnone])]
          exact hrec.1
        · simp only [arrLenFold, hnone]
          exact hrec.2

theorem popArrWith_shape (fuel : Nat) (src : List (Nat × Val)) :
    ∀ (idxs : List Nat) (h : Heap) (c : Cache) (r L : Nat) (E : List (Nat × Val)),
      h.find r = some (.arr L E) → r < h.next →
      (∀ i ∈ idxs, aget E i = none) → idxs.Nodup →
      ∀ h' c', popArrWith (deepCloneF fuel) r src h c idxs = .ok h' c' →
        ∃ tail, h'.find r = some (.arr (arrLenFold src L idxs) (E ++ tail)) ∧
          tail.map Prod.fst = idxs.filter (fun i => (aget src i).isSome) ∧
          (∀ i pv, aget src i = some (.prim pv) → i ∈ idxs →
            aget tail i = some (.prim pv)) := by
  intro idxs
  induction idxs with
  | nil =>
    intro h c r L E hfr _ _ _ h' c' heq
    injection heq with e1 e2
    subst e1
    refine ⟨[], by simpa [arrLenFold] using hfr, rfl, fun i pv _ hmem => absurd hmem (by simp)⟩
  | cons i rest ih =>
    intro h c r L E hfr hrN hEnone hnodup h' c' heq
    cases hs : aget src i with
    | none =>
      simp only [popArrWith, hs] at heq
      obtain ⟨tail, ht1, ht2, ht3⟩ := ih h c r L E hfr hrN
        (fun j hj => hEnone j (by simp [hj])) (List.nodup_cons.mp hnodup).2 h' c' heq
      refine ⟨tail, by simpa [arrLenFold, hs] using ht1, ?_, ?_⟩
      · rw [ht2, List.filter_cons_of_neg (by simp [hs])]
      · intro j pv hj hmem
        rcases List.mem_cons.mp hmem with hh | htl
        · subst hh
          rw [hs] at hj
          exact absurd hj (by simp)
        · exact ht3 j pv hj htl
    | some v =>
      cases hc : deepCloneF fuel h c v with
      | ok h1 c1 v1 =>
        simp only [popArrWith, hs, hc] at heq
        obtain ⟨e1, p1⟩ := deepCloneF_ext fuel h c v h1 c1 v1 hc
        have hfr1 : h1.find r = some (.arr L E) := by
          rw [e1.2 r hrN]
          exact hfr
        rw [hfr1] at heq
        have hEi : aget E i = none := hEnone i (by simp)
        have haset : aset E i v1 = E ++ [(i, v1)] := aset_append v1 hEi
        rw [haset] at heq
        have hstorefind : ((h1.store r (.arr (max L (i + 1)) (E ++ [(i, v1)])))).find r =
            some (.arr (max L (i + 1)) (E ++ [(i, v1)])) := Heap.find_store_self h1 r _
        have hnodup' := List.nodup_cons.mp hnodup
        have hE'none : ∀ j ∈ rest, aget (E ++ [(i, v1)]) j = none := by
          intro j hj
          rw [aget_append]
          rw [hEnone j (by simp [hj])]
          rw [aget_cons, if_neg (fun hji => hnodup'.1 (show i ∈ rest by
            rw [← hji]; exact hj))]
          rfl
        obtain ⟨tail, ht1, ht2, ht3⟩ := ih _ c1 r (max L (i + 1)) (E ++ [(i, v1)])
          hstorefind (by rw [Heap.next_store]; exact lt_of_lt_of_le hrN e1.1)
          hE'none hnodup'.2 h' c' heq
        refine ⟨(i, v1) :: tail, ?_, ?_, ?_⟩
        · rw [show E ++ (i, v1) :: tail = (E ++ [(i, v1)]) ++ tail by simp]
          simpa [arrLenFold, hs] using ht1
        · rw [List.filter_cons_of_pos (by simp [hs])]
          simp only [List.map_cons, ht2]
        · intro j pv hj hmem
          rcases List.mem_cons.mp hmem with hh | htl
          · subst hh
            rw [hs] at hj
            injection hj with hj
            subst hj
            have hv1 := (deepCloneF_prim_ok hc).1
            rw [aget_cons, if_pos rfl, hv1]
          · rw [aget_cons, if_neg (fun hji => hnodup'.1 (show i ∈ rest by
              rw [← hji]; exact htl))]
            exact ht3 j pv hj htl
      | typeError =>
        simp only [popArrWith, hs, hc] at heq
        exact absurd heq (by simp)
      | outOfFuel =>
        simp only [popArrWith, hs, hc] at heq
        exact absurd heq (by simp)

/-- **C5** (amended): for every array, the clone is a new array whose present
indices are exactly the present indices of the source (absent indices remain
absent, not explicit `undefined` entries) and whose present primitive
elements carry the same values; its `length` is one plus the largest present
index (`lenAfter 0 elems`; 0 when no index is present) — which equals the
source's `length` exactly when the last slot is present.  The source builds
the clone with `result[i] = ...` assignments only for present `i`, so
trailing holes shrink the length (see the counterexample). -/
theorem claim_C5_sparse_array (h : Heap) (p len : Nat) (elems : List (Nat × Val))
    (h' : Heap) (c' : Cache) (v' : Val)
    (hfind : h.find p = some (.arr len elems))
    (hasc : ascKeysB 0 elems = true) (hbound : ∀ q ∈ elems, (q.1 : Nat) < len)
    (hok : clone h (.ref p) = .ok h' c' v') :
    ∃ q es', v' = .ref q ∧ h'.find q = some (.arr (lenAfter 0 elems) es') ∧
      es'.map Prod.fst = elems.map Prod.fst ∧
      (∀ i pv, aget elems i = some (.prim pv) → aget es' i = some (.prim pv)) := by
  rw [clone_unfold] at hok
  cases hp : popArrWith (deepCloneF ((h.next + 1) * (h.next + 1) + h.next + 1)) h.next
      elems (h.alloc (.arr 0 [])) [(p, h.next)] (List.range len) with
  | ok h2 c2 =>
    simp only [deepCloneStep, aget, hfind, hp] at hok
    injection hok with e1 e2 e3
    subst e1
    obtain ⟨tail, ht1, ht2, ht3⟩ := popArrWith_shape _ elems (List.range len)
      (h.alloc (.arr 0 [])) [(p, h.next)] h.next 0 []
      (Heap.find_alloc_self h _) (by rw [Heap.next_alloc]; omega)
      (fun j _ => rfl) (List.nodup_range len) h2 c2 hp
    have hspec := arr_range_spec len 0 elems 0 hasc (by simpa using hbound)
    rw [List.range_eq_range'] at ht1 ht2
    refine ⟨h.next, tail, e3.symm, ?_, ?_, ?_⟩
    · rw [← hspec.2]
      simpa using ht1
    · rw [ht2, hspec.1]
    · intro i pv hi
      have hmem := aget_mem hi
      exact ht3 i pv hi (List.mem_range.mpr (hbound (i, .prim pv) hmem))
  | typeError =>
    simp only [deepCloneStep, aget, hfind, hp] at hok
    exact absurd hok (by simp)
  | outOfFuel =>
    simp only [deepCloneStep, aget, hfind, hp] at hok
    exact absurd hok (by simp)

/-- Closed instance of the amended C5: `clone([1, , , 4])` has length 4,
present indices exactly 0 and 3, and values 1 and 4 there (index 1 stays
absent since only indices 0 and 3 appear). -/
theorem claim_C5_sparse_array_witness :
    ∃ q es', (Val.ref 1) = .ref q ∧
      (Heap.mk 2 [(1, .arr 4 [(0, .prim (.num 1)), (3, .prim (.num 4))]),
        (1, .arr 1 [(0, .prim (.num 1))]), (1, .arr 0 []),
        (0, .arr 4 [(0, .prim (.num 1)), (3, .prim (.num 4))])]).find q =
        some (.arr 4 es') ∧
      es'.map Prod.fst = [0, 3] ∧
      (∀ i pv, aget [(0, Val.prim (.num 1)), (3, Val.prim (.num 4))] i =
          some (.prim pv) → aget es' i = some (.prim pv)) :=
  claim_C5_sparse_array hSparse 0 4 [(0, .prim (.num 1)), (3, .prim (.num 4))]
    ⟨2, [(1, .arr 4 [(0, .prim (.num 1)), (3, .prim (.num 4))]),
      (1, .arr 1 [(0, .prim (.num 1))]), (1, .arr 0 []),
      (0, .arr 4 [(0, .prim (.num 1)), (3, .prim (.num 4))])]⟩
    [(0, 1)] (.ref 1) (by decide) (by decide) (by decide) (by decide)

/-- Counterexample to C5 as stated ("a new array of the same length" for
every array): a length-2 array whose only present index is 0 clones to an
array of length 1 — the trailing hole is lost, because the clone starts as
`[]` and only executed assignments grow its length. -/
theorem claim_C5_trailing_hole_counterexample :
    clone hTrailingHole (.ref 0) =
      .ok ⟨2, [(1, .arr 1 [(0, .prim (.num 1))]), (1, .arr 0 []),
        (0, .arr 2 [(0, .prim (.num 1))])]⟩ [(0, 1)] (.ref 1) ∧
    (1 : Nat) ≠ 2 := ⟨by decide, by decide⟩

end ReflectDeep


